import Mathlib

/-!
# Verification of the Argon2 core (noble-hashes)

Shallow embedding of the Argon2 implementation found in this repository
(the `argon2.ts` module, shipped here as the second document of
`src/test/slow-big.test.js`), together with theorems settling the frozen
claims about it.

Embedding conventions:

* JavaScript numbers that hold 32-bit quantities are embedded as `ℤ`.
  The coercions performed by JavaScript bitwise operators are explicit:
  `toUint32` (the `>>> 0` / `Uint32Array`-store pattern) and `toInt32`
  (the `| 0` pattern).  Bitwise operations are computed on the unsigned
  bit patterns via `ℕ` bitwise operations, exactly as the 32-bit lattice
  of JavaScript does.
* `Uint32Array` buffers are embedded as functions `ℕ → ℕ` whose values
  are unsigned 32-bit patterns; a store coerces with `toUint32`.
* Byte strings are `List ℕ` (each entry a byte).
* The BLAKE2b hash is an external collaborator (its source file
  `blake2b.js` is not under `src/`); per the spec it is consumed as an
  incremental hasher with configurable output length, so it is passed as
  a parameter `H : List ℕ → ℕ → List ℕ` mapping (message, outLen) to the
  digest, incremental `update` calls being concatenation.
* Functions imported by the source from `_u64.js` and `utils.js` (which
  are not under `src/`) are modelled from the spec; each such definition
  carries a doc comment starting with `Modelled from the spec:`.
-/

namespace Argon2

/-- JavaScript ToUint32: the unsigned 32-bit bit pattern of an integer,
as an integer in `[0, 2^32)`.  This is the coercion applied by `>>> 0`
and by stores into a `Uint32Array`. -/
def toUint32 (x : ℤ) : ℤ := x % 2 ^ 32

/-- JavaScript ToInt32: the signed 32-bit reinterpretation (the `| 0`
coercion and the result type of `Math.imul`, `<<`, `&`, `|`, `^`). -/
def toInt32 (x : ℤ) : ℤ := (x + 2 ^ 31) % 2 ^ 32 - 2 ^ 31

/-- JavaScript unsigned right shift `x >>> n` (operand coerced by ToUint32). -/
def shru (x : ℤ) (n : ℕ) : ℤ := toUint32 x / 2 ^ n

/-- JavaScript bitwise and `x & y`: bitwise on the 32-bit patterns, result signed. -/
def jand (x y : ℤ) : ℤ := toInt32 (((toUint32 x).toNat &&& (toUint32 y).toNat : ℕ) : ℤ)

/-- JavaScript bitwise or `x | y`: bitwise on the 32-bit patterns, result signed. -/
def jor (x y : ℤ) : ℤ := toInt32 (((toUint32 x).toNat ||| (toUint32 y).toNat : ℕ) : ℤ)

/-- JavaScript bitwise xor `x ^ y`: bitwise on the 32-bit patterns, result signed. -/
def jxor (x y : ℤ) : ℤ := toInt32 (((toUint32 x).toNat ^^^ (toUint32 y).toNat : ℕ) : ℤ)

/-- JavaScript left shift `x << n`. -/
def shl (x : ℤ) (n : ℕ) : ℤ := toInt32 (toUint32 x * 2 ^ n)

/-- JavaScript `Math.imul x y`: 32-bit integer multiplication. -/
def imul (x y : ℤ) : ℤ := toInt32 (toUint32 x * toUint32 y)

/-- A `{h, l}` pair of JavaScript numbers (high and low 32-bit halves of a
64-bit quantity). -/
structure HL where
  h : ℤ
  l : ℤ
deriving Repr, DecidableEq

/-- Source `mul(a, b)`: u32 * u32 = u64, computed with 16-bit limbs via
`Math.imul`, returning the (high, low) halves. -/
def mul (a b : ℤ) : HL :=
  let aL := jand a 0xffff
  let aH := shru a 16
  let bL := jand b 0xffff
  let bH := shru b 16
  let ll := imul aL bL
  let hl := imul aH bL
  let lh := imul aL bH
  let hh := imul aH bH
  let carry := shru ll 16 + jand hl 0xffff + lh
  let high := toInt32 (hh + shru hl 16 + shru carry 16)
  let low := jor (shl carry 16) (jand ll 0xffff)
  ⟨high, low⟩

/-- Source `mul2(a, b)`: `2 * a * b` computed via shifts from `mul`. -/
def mul2 (a b : ℤ) : HL :=
  let m := mul a b
  ⟨jand (jor (shl m.h 1) (shru m.l 31)) 0xffffffff, jand (shl m.l 1) 0xffffffff⟩

/-- Modelled from the spec (§4.1): `add3L` is imported by the source from
`_u64.js`, which is not under src/.  The spec requires "addition of 2..5
operands yielding (h, l)" on (high, low) 32-bit halves; the low-halves
adder returns the exact (un-truncated) sum of the three unsigned low
halves so that its high bits carry into `add3H`. -/
def add3L (Al Bl Cl : ℤ) : ℤ := toUint32 Al + toUint32 Bl + toUint32 Cl

/-- Modelled from the spec (§4.1): `add3H` is imported by the source from
`_u64.js`, which is not under src/.  It adds the three high halves plus
the carry `low / 2^32` out of `add3L`, truncated to a signed 32-bit
result. -/
def add3H (low Ah Bh Ch : ℤ) : ℤ := toInt32 (Ah + Bh + Ch + low / 2 ^ 32)

/-- Source `blamka(Ah, Al, Bh, Bl)`: `A + B + (2 * u32(A) * u32(B))` on
64-bit values given as (high, low) halves. -/
def blamka (Ah Al Bh Bl : ℤ) : HL :=
  let m2 := mul2 Al Bl
  let Rll := add3L Al Bl m2.l
  ⟨add3H Rll Ah Bh m2.h, toInt32 Rll⟩

/-- The 64-bit value denoted by an `(h, l)` pair, read through the unsigned
32-bit patterns of its halves. -/
def HL.val (x : HL) : ℤ := toUint32 x.h * 2 ^ 32 + toUint32 x.l

/-- Source constant `ARGON2_SYNC_POINTS = 4`. -/
def ARGON2_SYNC_POINTS : ℕ := 4

/-- The local `area` of the source `indexAlpha` (the reference-set size). -/
def indexArea (r s laneLen segmentLen index : ℕ) (sameLane : Bool) : ℤ :=
  if r = 0 then
    if s = 0 then (index : ℤ) - 1
    else if sameLane then (s : ℤ) * segmentLen + index - 1
    else (s : ℤ) * segmentLen + (if index = 0 then -1 else 0)
  else if sameLane then (laneLen : ℤ) - segmentLen + index - 1
  else (laneLen : ℤ) - segmentLen + (if index = 0 then -1 else 0)

/-- The local `startPos` of the source `indexAlpha`. -/
def indexStartPos (r s segmentLen : ℕ) : ℤ :=
  if r ≠ 0 ∧ s ≠ ARGON2_SYNC_POINTS - 1 then ((s : ℤ) + 1) * segmentLen else 0

/-- The local `rel = area - 1 - mul(area, mul(randL, randL).h).h` of the source
`indexAlpha`. -/
def indexRel (area randL : ℤ) : ℤ := area - 1 - (mul area (mul randL randL).h).h

/-- Source `indexAlpha(r, s, laneLen, segmentLen, index, randL, sameLane)`: the
reference column inside the chosen reference lane.  JavaScript number
arithmetic is carried out in `ℤ`; the trailing `%` is the truncating
JavaScript remainder. -/
def indexAlpha (r s laneLen segmentLen index : ℕ) (randL : ℤ) (sameLane : Bool) : ℤ :=
  (indexStartPos r s segmentLen
    + indexRel (indexArea r s laneLen segmentLen index sameLane) randL).tmod (laneLen : ℤ)

/-- The reference lane chosen in `processBlock`:
`refLane = r === 0 && s === 0 ? l : randH % lanes`. -/
def refLane (r s l lanes : ℕ) (randH : ℤ) : ℤ :=
  if r = 0 ∧ s = 0 then (l : ℤ) else randH.tmod (lanes : ℤ)

/-- The driver's current block position `offset = l * laneLen + s * segmentLen + index`. -/
def blockOffset (l laneLen s segmentLen index : ℕ) : ℕ :=
  l * laneLen + s * segmentLen + index

/-- The driver's previous block position
`prev = offset % laneLen ? offset - 1 : offset + laneLen - 1`. -/
def prevOffset (off laneLen : ℕ) : ℕ :=
  if off % laneLen ≠ 0 then off - 1 else off + laneLen - 1

/-- Source `isUint32(num)`.  On `ℕ` the sign and safe-integer conditions
reduce to the upper bound (a natural that is not a safe integer already
exceeds `2^32`). -/
abbrev isUint32 (num : ℕ) : Prop := num < 2 ^ 32

/-- Source `toBytesOptional(buf)`: an absent optional byte input becomes the
empty byte string. -/
def toBytesOptional (buf : Option (List ℕ)) : List ℕ := buf.getD []

/-- The 4 little-endian bytes of a `Uint32Array(1)` cell holding `n`
(the store coerces to the unsigned 32-bit pattern). -/
def le32 (n : ℕ) : List ℕ :=
  [n % 2 ^ 32 % 256, n % 2 ^ 32 / 256 % 256, n % 2 ^ 32 / 65536 % 256,
    n % 2 ^ 32 / 16777216 % 256]

/-- Modelled from the spec: the `u8` view of the first `n` 32-bit words of a
word buffer — their 4·n little-endian bytes (`utils.js` is not under src/). -/
def bytesOfWords (w : ℕ → ℕ) (n : ℕ) : List ℕ :=
  (List.range n).flatMap fun i =>
    [w i % 256, w i / 256 % 256, w i / 65536 % 256, w i / 16777216 % 256]

/-- Modelled from the spec: the `u32` view of a byte string — its little-endian
32-bit words, as a word function (`utils.js` is not under src/). -/
def wordsOfBytes (b : List ℕ) : ℕ → ℕ := fun i =>
  b.getD (4 * i) 0 + 256 * b.getD (4 * i + 1) 0 + 65536 * b.getD (4 * i + 2) 0
    + 16777216 * b.getD (4 * i + 3) 0

/-- `TypedArray.set`: write `count` words from `src` into `buf` at `pos`. -/
def setWords (buf : ℕ → ℕ) (pos : ℕ) (src : ℕ → ℕ) (count : ℕ) : ℕ → ℕ :=
  fun j => if pos ≤ j ∧ j < pos + count then src (j - pos) else buf j

/-- The tail loop of the source `Hp`: while `dkLen - pos > 64` rehash `V` and
emit its first 32 bytes, then emit the final `dkLen - pos` bytes. -/
def HpLoop (H : List ℕ → ℕ → List ℕ) (V : List ℕ) (pos dkLen : ℕ) : List ℕ :=
  if h : 64 < dkLen - pos then
    let Vn := H V 64
    Vn.take 32 ++ HpLoop H Vn (pos + 32) dkLen
  else
    H V (dkLen - pos)
termination_by dkLen - pos
decreasing_by omega

/-- Source `Hp(A, dkLen)`: the variable-length hash H' over the abstract
BLAKE2b hasher `H`.  The input `A` is given as its byte view; the `u8`/`u32`
reinterpretations of the source are byte-level identities (modelled from
the spec, as `utils.js` is not under src/). -/
def Hp (H : List ℕ → ℕ → List ℕ) (A : List ℕ) (dkLen : ℕ) : List ℕ :=
  let T8 := le32 dkLen
  if dkLen ≤ 64 then H (T8 ++ A) dkLen
  else
    let V := H (T8 ++ A) 64
    V.take 32 ++ HpLoop H V 32 dkLen

/-- One error per throw site of `initOpts` / `argon2Init`. -/
inductive A2Err where
  | dkLenErr
  | parallelismErr
  | memErr
  | iterationsErr
  | memLowErr
  | versionErr
  | passwordErr
  | saltErr
  | typeErr
  | maxmemErr
deriving Repr, DecidableEq

/-- The options record `ArgonOpts` of the source.  Optional fields are
`Option`s (a JavaScript `undefined` is `none`); the presence of an
`onProgress` callback is tracked as a `Bool` (the source's
`typeof onProgress !== 'function'` check cannot fail in this typed
embedding). -/
structure ArgonOpts where
  t : ℕ
  m : ℕ
  p : ℕ
  version : Option ℕ := none
  key : Option (List ℕ) := none
  personalization : Option (List ℕ) := none
  dkLen : Option ℕ := none
  asyncTick : Option ℤ := none
  maxmem : Option ℕ := none
  onProgress : Bool := false

/-- The merged option record produced by `initOpts`. -/
structure MergedOpts where
  version : ℕ
  dkLen : ℕ
  maxmem : ℕ
  asyncTick : ℤ
  t : ℕ
  m : ℕ
  p : ℕ
  key : Option (List ℕ)
  personalization : Option (List ℕ)
  onProgress : Bool

/-- Source `initOpts(opts)`: merge the defaults
`{version: 0x13, dkLen: 32, maxmem: 2^32 - 1, asyncTick: 10}` with the
caller's options and validate them, with the source's throw order. -/
def initOpts (opts : ArgonOpts) : Except A2Err MergedOpts :=
  let version := opts.version.getD 0x13
  let dkLen := opts.dkLen.getD 32
  let maxmem := opts.maxmem.getD (2 ^ 32 - 1)
  let asyncTick := opts.asyncTick.getD 10
  if ¬ isUint32 dkLen ∨ dkLen < 4 then .error .dkLenErr
  else if ¬ isUint32 opts.p ∨ opts.p < 1 ∨ 2 ^ 24 ≤ opts.p then .error .parallelismErr
  else if ¬ isUint32 opts.m then .error .memErr
  else if ¬ isUint32 opts.t ∨ opts.t < 1 then .error .iterationsErr
  else if ¬ isUint32 opts.m ∨ opts.m < 8 * opts.p then .error .memLowErr
  else if version ≠ 0x10 ∧ version ≠ 0x13 then .error .versionErr
  else .ok ⟨version, dkLen, maxmem, asyncTick, opts.t, opts.m, opts.p,
    opts.key, opts.personalization, opts.onProgress⟩

/-- The H₀ preimage assembled by `argon2Init`: six little-endian parameter
words followed by the four length-prefixed byte inputs. -/
def h0Message (password salt key personalization : List ℕ)
    (p dkLen m t version type : ℕ) : List ℕ :=
  le32 p ++ le32 dkLen ++ le32 m ++ le32 t ++ le32 version ++ le32 type ++
    le32 password.length ++ password ++ le32 salt.length ++ salt ++
    le32 key.length ++ key ++ le32 personalization.length ++ personalization

/-- The seeding loop of `argon2Init`: the first two blocks of each lane are
`Hp(H0 || LE32(i) || LE32(l), 1024)` for `i = 0, 1`. -/
def seedLanes (H : List ℕ → ℕ → List ℕ) (H0 : List ℕ) (laneLen p : ℕ)
    (B : ℕ → ℕ) : ℕ → ℕ :=
  (List.range p).foldl (fun acc l =>
    let base := 256 * laneLen * l
    let acc1 := setWords acc base (wordsOfBytes (Hp H (H0 ++ le32 0 ++ le32 l) 1024)) 256
    setWords acc1 (base + 256) (wordsOfBytes (Hp H (H0 ++ le32 1 ++ le32 l) 1024)) 256) B

/-- Everything `argon2Init` returns, plus the final contents of its local
buffers `BUF` and `H0` (both zero-filled by the source before returning),
recorded for the zeroization claim. -/
structure InitResult where
  type : ℕ
  mP : ℕ
  p : ℕ
  t : ℕ
  version : ℕ
  laneLen : ℕ
  lanes : ℕ
  segmentLen : ℕ
  dkLen : ℕ
  B : ℕ → ℕ
  asyncTick : ℤ
  onProgress : Bool
  H0final : ℕ → ℕ
  BUFfinal : ℕ → ℕ

/-- Source `argon2Init(password, salt, type, opts)`: input validation, H₀
derivation, parameter derivation, the memory-budget check, allocation of the
matrix `B` and seeding of the first two blocks of each lane.  The final
`BUF.fill(0); H0.fill(0)` of the source is recorded in the returned
`H0final` / `BUFfinal` fields. -/
def argon2Init (H : List ℕ → ℕ → List ℕ) (password salt : List ℕ) (type : ℕ)
    (opts : ArgonOpts) : Except A2Err InitResult :=
  if ¬ isUint32 password.length then .error .passwordErr
  else if ¬ isUint32 salt.length ∨ salt.length < 8 then .error .saltErr
  else if ¬ (type = 0 ∨ type = 1 ∨ type = 2) then .error .typeErr
  else match initOpts opts with
  | .error e => .error e
  | .ok mo =>
    let key := toBytesOptional mo.key
    let personalization := toBytesOptional mo.personalization
    let H0 := H (h0Message password salt key personalization
      mo.p mo.dkLen mo.m mo.t mo.version type) 64
    let lanes := mo.p
    let mP := 4 * mo.p * (mo.m / (ARGON2_SYNC_POINTS * mo.p))
    let laneLen := mP / mo.p
    let segmentLen := laneLen / ARGON2_SYNC_POINTS
    let memUsed := mP * 256
    if ¬ isUint32 mo.maxmem ∨ mo.maxmem < memUsed then .error .maxmemErr
    else
      let B := seedLanes H H0 laneLen mo.p (fun _ => 0)
      .ok ⟨type, mP, mo.p, mo.t, mo.version, laneLen, lanes, segmentLen, mo.dkLen,
        B, mo.asyncTick, mo.onProgress, fun _ => 0, fun _ => 0⟩

/-- The value a `Uint32Array` store leaves in a cell: the unsigned 32-bit
pattern of the stored JavaScript number. -/
def storeU32 (z : ℤ) : ℕ := (toUint32 z).toNat

/-- Write the JavaScript number `z` into cell `i` of a word buffer
(`buf[i] = z` on a `Uint32Array`). -/
def upd (buf : ℕ → ℕ) (i : ℕ) (z : ℤ) : ℕ → ℕ :=
  fun j => if j = i then storeU32 z else buf j

/-- The all-zero word buffer (a freshly allocated or `fill(0)`-ed
`Uint32Array`). -/
def zeroFn : ℕ → ℕ := fun _ => 0

/-- Modelled from the spec: the high half of a 64-bit right-rotation by 32 of
`(h, l)` — the halves swap (`_u64.js` is not under src/). -/
def rotr32H (_h l : ℤ) : ℤ := l

/-- Modelled from the spec: the low half of a 64-bit right-rotation by 32 of
`(h, l)` (`_u64.js` is not under src/). -/
def rotr32L (h _l : ℤ) : ℤ := h

/-- Modelled from the spec: the high half of a 64-bit right-rotation of
`(h, l)` by `s` with `0 < s < 32` (`_u64.js` is not under src/). -/
def rotrSH (h l : ℤ) (s : ℕ) : ℤ := jor (shru h s) (shl l (32 - s))

/-- Modelled from the spec: the low half of a 64-bit right-rotation of
`(h, l)` by `s` with `0 < s < 32` (`_u64.js` is not under src/). -/
def rotrSL (h l : ℤ) (s : ℕ) : ℤ := jor (shru l s) (shl h (32 - s))

/-- Modelled from the spec: the high half of a 64-bit right-rotation of
`(h, l)` by `s` with `32 < s < 64` (`_u64.js` is not under src/). -/
def rotrBH (h l : ℤ) (s : ℕ) : ℤ := jor (shl h (64 - s)) (shru l (s - 32))

/-- Modelled from the spec: the low half of a 64-bit right-rotation of
`(h, l)` by `s` with `32 < s < 64` (`_u64.js` is not under src/). -/
def rotrBL (h l : ℤ) (s : ℕ) : ℤ := jor (shru h (s - 32)) (shl l (64 - s))

/-- Source `G(a, b, c, d)`: the BlaMka-based quarter round on the four 64-bit
words at positions `a, b, c, d` of the 256-word scratch buffer, each stored as
a `(low, high)` pair of 32-bit cells.  Every intermediate value mirrors one
assignment of the source. -/
def G (buf : ℕ → ℕ) (a b c d : ℕ) : ℕ → ℕ :=
  let Al : ℤ := buf (2 * a)
  let Ah : ℤ := buf (2 * a + 1)
  let Bl : ℤ := buf (2 * b)
  let Bh : ℤ := buf (2 * b + 1)
  let Cl : ℤ := buf (2 * c)
  let Ch : ℤ := buf (2 * c + 1)
  let Dl : ℤ := buf (2 * d)
  let Dh : ℤ := buf (2 * d + 1)
  let A1 := blamka Ah Al Bh Bl
  let Dh1 := jxor Dh A1.h
  let Dl1 := jxor Dl A1.l
  let Dh2 := rotr32H Dh1 Dl1
  let Dl2 := rotr32L Dh1 Dl1
  let C1 := blamka Ch Cl Dh2 Dl2
  let Bh1 := jxor Bh C1.h
  let Bl1 := jxor Bl C1.l
  let Bh2 := rotrSH Bh1 Bl1 24
  let Bl2 := rotrSL Bh1 Bl1 24
  let A2 := blamka A1.h A1.l Bh2 Bl2
  let Dh3 := jxor Dh2 A2.h
  let Dl3 := jxor Dl2 A2.l
  let Dh4 := rotrSH Dh3 Dl3 16
  let Dl4 := rotrSL Dh3 Dl3 16
  let C2 := blamka C1.h C1.l Dh4 Dl4
  let Bh3 := jxor Bh2 C2.h
  let Bl3 := jxor Bl2 C2.l
  let Bh4 := rotrBH Bh3 Bl3 63
  let Bl4 := rotrBL Bh3 Bl3 63
  upd (upd (upd (upd (upd (upd (upd (upd buf
    (2 * a) A2.l) (2 * a + 1) A2.h)
    (2 * b) Bl4) (2 * b + 1) Bh4)
    (2 * c) C2.l) (2 * c + 1) C2.h)
    (2 * d) Dl4) (2 * d + 1) Dh4

/-- Source `P(v00, ..., v15)`: the BLAKE2b-style round on 16 of the scratch
buffer's 64-bit words, eight `G` calls in the source's order. -/
def P (buf : ℕ → ℕ)
    (v00 v01 v02 v03 v04 v05 v06 v07 v08 v09 v10 v11 v12 v13 v14 v15 : ℕ) :
    ℕ → ℕ :=
  let b1 := G buf v00 v04 v08 v12
  let b2 := G b1 v01 v05 v09 v13
  let b3 := G b2 v02 v06 v10 v14
  let b4 := G b3 v03 v07 v11 v15
  let b5 := G b4 v00 v05 v10 v15
  let b6 := G b5 v01 v06 v11 v12
  let b7 := G b6 v02 v07 v08 v13
  G b7 v03 v04 v09 v14

/-- Source `block(x, xPos, yPos, outPos, needXor)`: xor the two source blocks
into the 256-word scratch, run the 8 column `P`s and the 8 row `P`s, then
write (or xor) the result block into `x` at `outPos`.  Returns the updated
`x` together with the scratch buffer's final contents — all zeros, from the
source's trailing `A2_BUF.fill(0)`. -/
def block (x : ℕ → ℕ) (xPos yPos outPos : ℕ) (needXor : Bool) :
    (ℕ → ℕ) × (ℕ → ℕ) :=
  let init : ℕ → ℕ := fun i => storeU32 (jxor (x (xPos + i) : ℤ) (x (yPos + i) : ℤ))
  let afterCols := (List.range 8).foldl (fun b k =>
    P b (16 * k) (16 * k + 1) (16 * k + 2) (16 * k + 3) (16 * k + 4) (16 * k + 5)
      (16 * k + 6) (16 * k + 7) (16 * k + 8) (16 * k + 9) (16 * k + 10) (16 * k + 11)
      (16 * k + 12) (16 * k + 13) (16 * k + 14) (16 * k + 15)) init
  let R := (List.range 8).foldl (fun b k =>
    P b (2 * k) (2 * k + 1) (2 * k + 16) (2 * k + 17) (2 * k + 32) (2 * k + 33)
      (2 * k + 48) (2 * k + 49) (2 * k + 64) (2 * k + 65) (2 * k + 80) (2 * k + 81)
      (2 * k + 96) (2 * k + 97) (2 * k + 112) (2 * k + 113)) afterCols
  (fun j =>
    if outPos ≤ j ∧ j < outPos + 256 then
      let i := j - outPos
      let v : ℤ := jxor (jxor (R i : ℤ) (x (xPos + i) : ℤ)) (x (yPos + i) : ℤ)
      if needXor then storeU32 (jxor (x j : ℤ) v) else storeU32 v
    else x j,
   fun _ => 0)

/-- Source `processBlock(B, address, l, r, s, index, laneLen, segmentLen,
lanes, offset, prev, dataIndependent, needXor)`: re-derive `prev`, obtain the
pseudorandom pair (regenerating the address block every 128 blocks in
data-independent mode), pick the reference block and produce block `offset`.
Returns the updated matrix, the updated address triple and the scratch
buffer's final contents. -/
def processBlock (B addr : ℕ → ℕ) (l r s index laneLen segmentLen lanes offset prev : ℕ)
    (dataIndependent needXor : Bool) : (ℕ → ℕ) × (ℕ → ℕ) × (ℕ → ℕ) :=
  let prev := if offset % laneLen ≠ 0 then offset - 1 else prev
  let addr2 :=
    if dataIndependent ∧ index % 128 = 0 then
      let a1 := upd addr (256 + 12) ((addr (256 + 12) : ℤ) + 1)
      let p1 := block a1 256 (2 * 256) 0 false
      (block p1.1 0 (2 * 256) 0 false).1
    else addr
  let randL : ℤ :=
    if dataIndependent then (addr2 (2 * (index % 128)) : ℤ) else (B (256 * prev) : ℤ)
  let randH : ℤ :=
    if dataIndependent then (addr2 (2 * (index % 128) + 1) : ℤ) else (B (256 * prev + 1) : ℤ)
  let rl := refLane r s l lanes randH
  let refPos := indexAlpha r s laneLen segmentLen index randL (decide (rl = (l : ℤ)))
  let refBlock := ((laneLen : ℤ) * rl + refPos).toNat
  let outB := block B (256 * prev) (256 * refBlock) (offset * 256) needXor
  (outB.1, addr2, outB.2)

/-- The memory-side state of the driver loop: the matrix `B`, the
`3 * 256`-word address triple, and the 256-word scratch buffer's contents. -/
structure MemState where
  B : ℕ → ℕ
  addr : ℕ → ℕ
  a2 : ℕ → ℕ

/-- The progress-side state of the driver loop: the `blockCnt` counter and the
list of `onProgress` invocations so far.  The source passes the quotient
`blockCnt / totalBlock`; each invocation is recorded as the exact pair
`(blockCnt, totalBlock)` that determines it. -/
structure ProgState where
  cnt : ℕ
  trace : List (ℕ × ℕ)

/-- Source `perBlock()`: when an `onProgress` callback is present, increment
`blockCnt` and invoke the callback with `blockCnt / totalBlock` whenever
`blockCnt % callbackPer = 0` or `blockCnt = totalBlock`; otherwise do
nothing. -/
def perBlockStep (onP : Bool) (totalBlock callbackPer : ℕ) (ps : ProgState) : ProgState :=
  if onP then
    let c := ps.cnt + 1
    if c % callbackPer = 0 ∨ c = totalBlock then
      ⟨c, ps.trace ++ [(c, totalBlock)]⟩
    else ⟨c, ps.trace⟩
  else ps

/-- Iterate a function `n` times. -/
def iterN {α : Type} (f : α → α) : ℕ → α → α
  | 0, a => a
  | n + 1, a => iterN f n (f a)

/-- The number of blocks produced in segment `(r, s)` of one lane:
`segmentLen` minus the two seeded blocks skipped when `r = 0 ∧ s = 0`. -/
def progCount (segmentLen r s : ℕ) : ℕ :=
  segmentLen - (if r = 0 ∧ s = 0 then 2 else 0)

/-- The memory transition of one iteration of the driver's innermost loop:
`offset` and `prev` as maintained incrementally by the source
(`index++, offset++, prev++`), then `processBlock`. -/
def memIndexStep (laneLen segmentLen lanes : ℕ) (dI nX : Bool) (r s l startPos : ℕ)
    (ms : MemState) (index : ℕ) : MemState :=
  let offset := l * laneLen + s * segmentLen + index
  let offset0 := l * laneLen + s * segmentLen + startPos
  let prev0 := if offset0 % laneLen ≠ 0 then offset0 - 1 else offset0 + laneLen - 1
  let prev := prev0 + (index - startPos)
  let res := processBlock ms.B ms.addr l r s index laneLen segmentLen lanes offset prev dI nX
  ⟨res.1, res.2.1, res.2.2⟩

/-- One iteration of the driver's innermost loop: `perBlock()` then
`processBlock(...)` — the two act on disjoint components of the state. -/
def syncIndexStep (laneLen segmentLen lanes : ℕ) (dI nX : Bool) (r s l startPos : ℕ)
    (onP : Bool) (tB cP : ℕ) (st : MemState × ProgState) (index : ℕ) :
    MemState × ProgState :=
  (memIndexStep laneLen segmentLen lanes dI nX r s l startPos st.1 index,
   perBlockStep onP tB cP st.2)

/-- The driver's per-lane prelude: write `l` into `address[256 + 2]`, reset
`address[256 + 12]`, and — in the first segment of the first pass of a
data-independent variant — prime the address block. -/
def lanePrelude (dI : Bool) (r s : ℕ) (ms : MemState) (l : ℕ) : MemState :=
  let addr1 := upd (upd ms.addr (256 + 2) (l : ℤ)) (256 + 12) 0
  if r = 0 ∧ s = 0 ∧ dI = true then
    let a1 := upd addr1 (256 + 12) ((addr1 (256 + 12) : ℤ) + 1)
    let p1 := block a1 256 (2 * 256) 0 false
    let p2 := block p1.1 0 (2 * 256) 0 false
    ⟨ms.B, p2.1, p2.2⟩
  else ⟨ms.B, addr1, ms.a2⟩

/-- The driver's per-lane body: the prelude followed by the inner loop over
`index` from `startPos` to `segmentLen`. -/
def laneStep (laneLen segmentLen lanes : ℕ) (dI nX : Bool) (r s : ℕ)
    (onP : Bool) (tB cP : ℕ) (st : MemState × ProgState) (l : ℕ) :
    MemState × ProgState :=
  let startPos := if r = 0 ∧ s = 0 then 2 else 0
  (List.range' startPos (segmentLen - startPos)).foldl
    (syncIndexStep laneLen segmentLen lanes dI nX r s l startPos onP tB cP)
    (lanePrelude dI r s st.1 l, st.2)

/-- The memory side of `laneStep`. -/
def memLaneStep (laneLen segmentLen lanes : ℕ) (dI nX : Bool) (r s : ℕ)
    (ms : MemState) (l : ℕ) : MemState :=
  let startPos := if r = 0 ∧ s = 0 then 2 else 0
  (List.range' startPos (segmentLen - startPos)).foldl
    (memIndexStep laneLen segmentLen lanes dI nX r s l startPos)
    (lanePrelude dI r s ms l)

/-- The driver's per-segment body: write `s` into `address[256 + 4]`, compute
`dataIndependent`, and loop over the lanes. -/
def segStep (laneLen segmentLen lanes p type : ℕ) (nX : Bool) (r : ℕ)
    (onP : Bool) (tB cP : ℕ) (st : MemState × ProgState) (s : ℕ) :
    MemState × ProgState :=
  let dI : Bool := decide (type = 1 ∨ (type = 2 ∧ r = 0 ∧ s < 2))
  (List.range p).foldl (laneStep laneLen segmentLen lanes dI nX r s onP tB cP)
    (⟨st.1.B, upd st.1.addr (256 + 4) (s : ℤ), st.1.a2⟩, st.2)

/-- The memory side of `segStep`. -/
def memSegStep (laneLen segmentLen lanes p type : ℕ) (nX : Bool) (r : ℕ)
    (ms : MemState) (s : ℕ) : MemState :=
  let dI : Bool := decide (type = 1 ∨ (type = 2 ∧ r = 0 ∧ s < 2))
  (List.range p).foldl (memLaneStep laneLen segmentLen lanes dI nX r s)
    ⟨ms.B, upd ms.addr (256 + 4) (s : ℤ), ms.a2⟩

/-- The driver's per-pass body: compute `needXor`, write `r` into
`address[256 + 0]`, and loop over the four sync points. -/
def passStep (laneLen segmentLen lanes p type version : ℕ)
    (onP : Bool) (tB cP : ℕ) (st : MemState × ProgState) (r : ℕ) :
    MemState × ProgState :=
  let nX : Bool := decide (r ≠ 0 ∧ version = 0x13)
  (List.range ARGON2_SYNC_POINTS).foldl (segStep laneLen segmentLen lanes p type nX r onP tB cP)
    (⟨st.1.B, upd st.1.addr 256 (r : ℤ), st.1.a2⟩, st.2)

/-- The memory side of `passStep`. -/
def memPassStep (laneLen segmentLen lanes p type version : ℕ)
    (ms : MemState) (r : ℕ) : MemState :=
  let nX : Bool := decide (r ≠ 0 ∧ version = 0x13)
  (List.range ARGON2_SYNC_POINTS).foldl (memSegStep laneLen segmentLen lanes p type nX r)
    ⟨ms.B, upd ms.addr 256 (r : ℤ), ms.a2⟩

/-- The driver's main loop: all passes. -/
def mainLoop (laneLen segmentLen lanes p t type version : ℕ)
    (onP : Bool) (tB cP : ℕ) (st : MemState × ProgState) : MemState × ProgState :=
  (List.range t).foldl (passStep laneLen segmentLen lanes p type version onP tB cP) st

/-- The memory side of `mainLoop`. -/
def memMain (laneLen segmentLen lanes p t type version : ℕ) (ms : MemState) : MemState :=
  (List.range t).foldl (memPassStep laneLen segmentLen lanes p type version) ms

/-- The progress side of `mainLoop`: in each segment of each pass, each of the
`p` lanes advances the progress state by `progCount` applications of
`perBlockStep`. -/
def progMain (onP : Bool) (tB cP t p segmentLen : ℕ) (ps : ProgState) : ProgState :=
  (List.range t).foldl (fun ps r =>
    (List.range ARGON2_SYNC_POINTS).foldl (fun ps s =>
      iterN (perBlockStep onP tB cP) (p * progCount segmentLen r s) ps) ps) ps

/-- The full list of `onProgress` invocations — as `(blockCnt, totalBlock)`
pairs — during one run with the given parameters. -/
def progTraceRun (onP : Bool) (t p segmentLen : ℕ) : List (ℕ × ℕ) :=
  let tB := t * ARGON2_SYNC_POINTS * p * segmentLen
  (progMain onP tB (max (tB / 10000) 1) t p segmentLen ⟨0, []⟩).trace

/-- The total number of produced blocks (driver iterations) in one run:
`t·4·p·segmentLen` minus the `2p` seeded blocks skipped in the first segment
of the first pass. -/
def progN (t p segmentLen : ℕ) : ℕ :=
  if t = 0 then 0
  else (t - 1) * (ARGON2_SYNC_POINTS * p * segmentLen)
    + 3 * (p * segmentLen) + p * (segmentLen - 2)

/-- Source `argon2Output(B, p, laneLen, dkLen)`: xor the last column of the
matrix into the accumulator `B_final`, hash it with H', and zero the
accumulator.  Returns the output bytes and the accumulator's final
contents. -/
def argon2Output (H : List ℕ → ℕ → List ℕ) (B : ℕ → ℕ) (p laneLen dkLen : ℕ) :
    List ℕ × (ℕ → ℕ) :=
  let Bfinal : ℕ → ℕ := fun j =>
    (List.range p).foldl
      (fun acc l => storeU32 (jxor (acc : ℤ) (B (256 * (laneLen * l + laneLen - 1) + j) : ℤ))) 0
  (Hp H (bytesOfWords Bfinal 256) dkLen, fun _ => 0)

/-- Everything observable about one successful top-level call: the returned
byte string, the requested output length, the `onProgress` trace, and the
final contents of the auxiliary buffers (address triple, scratch, `H0`, the
length-encoding `BUF`, and the finalization accumulator). -/
structure A2Result where
  out : List ℕ
  dkLen : ℕ
  trace : List (ℕ × ℕ)
  addrFinal : ℕ → ℕ
  a2Final : ℕ → ℕ
  H0final : ℕ → ℕ
  BUFfinal : ℕ → ℕ
  accFinal : ℕ → ℕ

/-- Source `argon2(type, password, salt, opts)`: initialization, the address
triple setup (`address[256+6] = mP`, `address[256+8] = t`,
`address[256+10] = type`), the pass/segment/lane driver, the trailing
`address.fill(0)` (recorded in `addrFinal`), and finalization. -/
def argon2Full (H : List ℕ → ℕ → List ℕ) (type : ℕ) (password salt : List ℕ)
    (opts : ArgonOpts) : Except A2Err A2Result :=
  match argon2Init H password salt type opts with
  | .error e => .error e
  | .ok ir =>
    let totalBlock := ir.t * ARGON2_SYNC_POINTS * ir.p * ir.segmentLen
    let callbackPer := max (totalBlock / 10000) 1
    let addr0 := upd (upd (upd zeroFn (256 + 6) (ir.mP : ℤ)) (256 + 8) (ir.t : ℤ))
      (256 + 10) (ir.type : ℤ)
    let st := mainLoop ir.laneLen ir.segmentLen ir.lanes ir.p ir.t ir.type ir.version
      ir.onProgress totalBlock callbackPer (⟨ir.B, addr0, zeroFn⟩, ⟨0, []⟩)
    let out := argon2Output H st.1.B ir.p ir.laneLen ir.dkLen
    .ok ⟨out.1, ir.dkLen, st.2.trace, zeroFn, st.1.a2, ir.H0final, ir.BUFfinal, out.2⟩

/-- The cooperative driver's clock state: the yield baseline `ts` and the
index of the next `Date.now()` reading in the ambient clock stream. -/
structure TickState where
  ts : ℤ
  k : ℕ

/-- The cooperative driver's per-block clock check: read the clock, and if the
elapsed time is outside `[0, asyncTick)`, yield and advance the baseline by
the elapsed time. -/
def tickStep (clock : ℕ → ℤ) (asyncTick : ℤ) (tk : TickState) : TickState :=
  let diff := clock tk.k - tk.ts
  ⟨if ¬ (0 ≤ diff ∧ diff < asyncTick) then tk.ts + diff else tk.ts, tk.k + 1⟩

/-- One iteration of the cooperative driver's innermost loop: the blocking
iteration followed by the clock check. -/
def asyncIndexStep (laneLen segmentLen lanes : ℕ) (dI nX : Bool) (r s l startPos : ℕ)
    (onP : Bool) (tB cP : ℕ) (clock : ℕ → ℤ) (aT : ℤ)
    (st : (MemState × ProgState) × TickState) (index : ℕ) :
    (MemState × ProgState) × TickState :=
  (syncIndexStep laneLen segmentLen lanes dI nX r s l startPos onP tB cP st.1 index,
   tickStep clock aT st.2)

/-- The cooperative driver's per-lane body. -/
def asyncLaneStep (laneLen segmentLen lanes : ℕ) (dI nX : Bool) (r s : ℕ)
    (onP : Bool) (tB cP : ℕ) (clock : ℕ → ℤ) (aT : ℤ)
    (st : (MemState × ProgState) × TickState) (l : ℕ) :
    (MemState × ProgState) × TickState :=
  let startPos := if r = 0 ∧ s = 0 then 2 else 0
  (List.range' startPos (segmentLen - startPos)).foldl
    (asyncIndexStep laneLen segmentLen lanes dI nX r s l startPos onP tB cP clock aT)
    ((lanePrelude dI r s st.1.1 l, st.1.2), st.2)

/-- The cooperative driver's per-segment body. -/
def asyncSegStep (laneLen segmentLen lanes p type : ℕ) (nX : Bool) (r : ℕ)
    (onP : Bool) (tB cP : ℕ) (clock : ℕ → ℤ) (aT : ℤ)
    (st : (MemState × ProgState) × TickState) (s : ℕ) :
    (MemState × ProgState) × TickState :=
  let dI : Bool := decide (type = 1 ∨ (type = 2 ∧ r = 0 ∧ s < 2))
  (List.range p).foldl (asyncLaneStep laneLen segmentLen lanes dI nX r s onP tB cP clock aT)
    ((⟨st.1.1.B, upd st.1.1.addr (256 + 4) (s : ℤ), st.1.1.a2⟩, st.1.2), st.2)

/-- The cooperative driver's per-pass body. -/
def asyncPassStep (laneLen segmentLen lanes p type version : ℕ)
    (onP : Bool) (tB cP : ℕ) (clock : ℕ → ℤ) (aT : ℤ)
    (st : (MemState × ProgState) × TickState) (r : ℕ) :
    (MemState × ProgState) × TickState :=
  let nX : Bool := decide (r ≠ 0 ∧ version = 0x13)
  (List.range ARGON2_SYNC_POINTS).foldl
    (asyncSegStep laneLen segmentLen lanes p type nX r onP tB cP clock aT)
    ((⟨st.1.1.B, upd st.1.1.addr 256 (r : ℤ), st.1.1.a2⟩, st.1.2), st.2)

/-- The cooperative driver's main loop. -/
def asyncMainLoop (laneLen segmentLen lanes p t type version : ℕ)
    (onP : Bool) (tB cP : ℕ) (clock : ℕ → ℤ) (aT : ℤ)
    (st : (MemState × ProgState) × TickState) : (MemState × ProgState) × TickState :=
  (List.range t).foldl
    (asyncPassStep laneLen segmentLen lanes p type version onP tB cP clock aT) st

/-- Source `argon2Async(type, password, salt, opts)`: the cooperative driver.
Wall-clock readings are supplied as the abstract stream `clock`; `ts` starts
at `clock 0` (the initial `Date.now()`), and every produced block performs one
clock check.  The computation and result are otherwise those of the blocking
driver. -/
def argon2AsyncFull (H : List ℕ → ℕ → List ℕ) (clock : ℕ → ℤ) (type : ℕ)
    (password salt : List ℕ) (opts : ArgonOpts) : Except A2Err A2Result :=
  match argon2Init H password salt type opts with
  | .error e => .error e
  | .ok ir =>
    let totalBlock := ir.t * ARGON2_SYNC_POINTS * ir.p * ir.segmentLen
    let callbackPer := max (totalBlock / 10000) 1
    let addr0 := upd (upd (upd zeroFn (256 + 6) (ir.mP : ℤ)) (256 + 8) (ir.t : ℤ))
      (256 + 10) (ir.type : ℤ)
    let st := asyncMainLoop ir.laneLen ir.segmentLen ir.lanes ir.p ir.t ir.type ir.version
      ir.onProgress totalBlock callbackPer clock ir.asyncTick
      ((⟨ir.B, addr0, zeroFn⟩, ⟨0, []⟩), ⟨clock 0, 1⟩)
    let out := argon2Output H st.1.1.B ir.p ir.laneLen ir.dkLen
    .ok ⟨out.1, ir.dkLen, st.1.2.trace, zeroFn, st.1.1.a2, ir.H0final, ir.BUFfinal, out.2⟩

end Argon2

namespace Argon2

/-! ## Lemmas about the JavaScript 32-bit arithmetic -/

theorem toUint32_nonneg (x : ℤ) : 0 ≤ toUint32 x :=
  Int.emod_nonneg x (by norm_num)

theorem toUint32_lt (x : ℤ) : toUint32 x < 2 ^ 32 :=
  Int.emod_lt_of_pos x (by norm_num)

theorem toUint32_eq_of_lt {x : ℤ} (h0 : 0 ≤ x) (h1 : x < 2 ^ 32) : toUint32 x = x :=
  Int.emod_eq_of_lt h0 h1

theorem toUint32_modEq (x : ℤ) : toUint32 x ≡ x [ZMOD 2 ^ 32] :=
  Int.emod_emod_of_dvd x dvd_rfl

theorem toUint32_congr {x y : ℤ} (h : x ≡ y [ZMOD 2 ^ 32]) : toUint32 x = toUint32 y := h

theorem toInt32_modEq (x : ℤ) : toInt32 x ≡ x [ZMOD 2 ^ 32] := by
  have h1 : (x + 2 ^ 31) % 2 ^ 32 ≡ x + 2 ^ 31 [ZMOD 2 ^ 32] :=
    Int.emod_emod_of_dvd _ dvd_rfl
  have h2 := Int.ModEq.sub_right (2 ^ 31) h1
  simpa [toInt32] using h2

theorem toUint32_toInt32 (x : ℤ) : toUint32 (toInt32 x) = toUint32 x :=
  toUint32_congr (toInt32_modEq x)

theorem toInt32_eq_of_small {x : ℤ} (h0 : 0 ≤ x) (h1 : x < 2 ^ 31) : toInt32 x = x := by
  have h2 : (x + 2 ^ 31) % 2 ^ 32 = x + 2 ^ 31 :=
    Int.emod_eq_of_lt (by omega) (by omega)
  rw [toInt32, h2]
  ring

theorem toUint32_ofNat (n : ℕ) : toUint32 (n : ℤ) = ((n % 2 ^ 32 : ℕ) : ℤ) := by
  rw [toUint32]
  push_cast
  ring

theorem toUint32_toNat_lt (x : ℤ) : (toUint32 x).toNat < 2 ^ 32 := by
  have h1 := toUint32_lt x
  have h0 := toUint32_nonneg x
  omega

/-- Unsigned pattern of a bitwise-and result. -/
theorem toUint32_jand (x y : ℤ) :
    toUint32 (jand x y) = (((toUint32 x).toNat &&& (toUint32 y).toNat : ℕ) : ℤ) := by
  have hlt : ((toUint32 x).toNat &&& (toUint32 y).toNat : ℕ) < 2 ^ 32 :=
    lt_of_le_of_lt (Nat.and_le_left ..) (toUint32_toNat_lt x)
  rw [jand, toUint32_toInt32, toUint32_eq_of_lt (by positivity) (by exact_mod_cast hlt)]

/-- Unsigned pattern of a bitwise-or result. -/
theorem toUint32_jor (x y : ℤ) :
    toUint32 (jor x y) = (((toUint32 x).toNat ||| (toUint32 y).toNat : ℕ) : ℤ) := by
  have hlt : ((toUint32 x).toNat ||| (toUint32 y).toNat : ℕ) < 2 ^ 32 :=
    Nat.or_lt_two_pow (toUint32_toNat_lt x) (toUint32_toNat_lt y)
  rw [jor, toUint32_toInt32, toUint32_eq_of_lt (by positivity) (by exact_mod_cast hlt)]

/-- Unsigned pattern of a bitwise-xor result. -/
theorem toUint32_jxor (x y : ℤ) :
    toUint32 (jxor x y) = (((toUint32 x).toNat ^^^ (toUint32 y).toNat : ℕ) : ℤ) := by
  have hlt : ((toUint32 x).toNat ^^^ (toUint32 y).toNat : ℕ) < 2 ^ 32 :=
    Nat.xor_lt_two_pow (toUint32_toNat_lt x) (toUint32_toNat_lt y)
  rw [jxor, toUint32_toInt32, toUint32_eq_of_lt (by positivity) (by exact_mod_cast hlt)]

/-- `x & 0xffff` keeps the low 16 bits of the pattern. -/
theorem jand_ffff (x : ℤ) : jand x 0xffff = toUint32 x % 2 ^ 16 := by
  have h1 : toUint32 (0xffff : ℤ) = (0xffff : ℤ) := toUint32_eq_of_lt (by norm_num) (by norm_num)
  have h2 : ((0xffff : ℤ)).toNat = 2 ^ 16 - 1 := by decide
  have h3 : (toUint32 x).toNat &&& (2 ^ 16 - 1) = (toUint32 x).toNat % 2 ^ 16 :=
    Nat.and_pow_two_sub_one_eq_mod _ 16
  have hsmall : ((toUint32 x).toNat % 2 ^ 16 : ℕ) < 2 ^ 31 :=
    lt_of_lt_of_le (Nat.mod_lt _ (by norm_num)) (by norm_num)
  rw [jand, h1, h2, h3, toInt32_eq_of_small (by positivity) (by exact_mod_cast hsmall)]
  have h0 := toUint32_nonneg x
  omega

/-- `x & 0xffffffff` is just ToInt32. -/
theorem jand_ffffffff (x : ℤ) : jand x 0xffffffff = toInt32 (toUint32 x) := by
  have h1 : toUint32 (0xffffffff : ℤ) = (0xffffffff : ℤ) :=
    toUint32_eq_of_lt (by norm_num) (by norm_num)
  have h2 : ((0xffffffff : ℤ)).toNat = 2 ^ 32 - 1 := by decide
  have h3 : (toUint32 x).toNat &&& (2 ^ 32 - 1) = (toUint32 x).toNat % 2 ^ 32 :=
    Nat.and_pow_two_sub_one_eq_mod _ 32
  have h4 : (toUint32 x).toNat % 2 ^ 32 = (toUint32 x).toNat :=
    Nat.mod_eq_of_lt (toUint32_toNat_lt x)
  rw [jand, h1, h2, h3, h4, Int.toNat_of_nonneg (toUint32_nonneg x)]

/-- Pattern of `x & 0xffffffff` is the pattern of `x`. -/
theorem toUint32_jand_ffffffff (x : ℤ) : toUint32 (jand x 0xffffffff) = toUint32 x := by
  rw [jand_ffffffff, toUint32_toInt32, toUint32_eq_of_lt (toUint32_nonneg x) (toUint32_lt x)]

theorem shru_nonneg (x : ℤ) (n : ℕ) : 0 ≤ shru x n :=
  Int.ediv_nonneg (toUint32_nonneg x) (by positivity)

theorem shru_lt (x : ℤ) (n : ℕ) : shru x n < 2 ^ 32 :=
  lt_of_le_of_lt (Int.ediv_le_self _ (toUint32_nonneg x)) (toUint32_lt x)

/-- Bitwise or of disjoint ranges is addition. -/
theorem nat_lor_eq_add {c b n : ℕ} (hb : b < 2 ^ n) : (c * 2 ^ n) ||| b = c * 2 ^ n + b := by
  apply Nat.eq_of_testBit_eq
  intro i
  rw [Nat.testBit_or]
  rcases lt_or_le i n with hin | hin
  · have hsplit : (2 : ℕ) ^ n = 2 ^ i * (2 * 2 ^ (n - i - 1)) := by
      rw [← pow_succ', ← pow_add]
      congr 1
      omega
    have hdiv1 : c * 2 ^ n / 2 ^ i = 2 * (c * 2 ^ (n - i - 1)) := by
      rw [hsplit, ← Nat.mul_assoc, Nat.mul_comm c (2 ^ i), Nat.mul_assoc,
        Nat.mul_div_cancel_left _ (Nat.two_pow_pos i)]
      ring
    have hdiv2 : (c * 2 ^ n + b) / 2 ^ i = 2 * (c * 2 ^ (n - i - 1)) + b / 2 ^ i := by
      rw [hsplit, ← Nat.mul_assoc, Nat.mul_comm c (2 ^ i), Nat.mul_assoc,
        Nat.mul_add_div (Nat.two_pow_pos i)]
      ring_nf
    rw [Nat.testBit_to_div_mod, Nat.testBit_to_div_mod, Nat.testBit_to_div_mod, hdiv1, hdiv2]
    generalize c * 2 ^ (n - i - 1) = m
    generalize b / 2 ^ i = B
    have h1 : 2 * m % 2 = 0 := by omega
    have h2 : (2 * m + B) % 2 = B % 2 := by omega
    rw [h1, h2]
    simp
  · have hj : i = n + (i - n) := by omega
    have hdiv3 : c * 2 ^ n / 2 ^ i = c / 2 ^ (i - n) := by
      conv_lhs => rw [hj]
      rw [pow_add, ← Nat.div_div_eq_div_mul, Nat.mul_div_cancel _ (Nat.two_pow_pos n)]
    have hdiv4 : (c * 2 ^ n + b) / 2 ^ i = c / 2 ^ (i - n) := by
      conv_lhs => rw [hj]
      rw [pow_add, ← Nat.div_div_eq_div_mul, Nat.mul_comm c (2 ^ n),
        Nat.mul_add_div (Nat.two_pow_pos n), Nat.div_eq_of_lt hb, Nat.add_zero]
    have htb : b.testBit i = false := by
      apply Nat.testBit_lt_two_pow
      exact lt_of_lt_of_le hb (Nat.pow_le_pow_right (by norm_num) hin)
    rw [htb, Nat.testBit_to_div_mod, Nat.testBit_to_div_mod, hdiv3, hdiv4]
    simp

theorem toUint32_idem (x : ℤ) : toUint32 (toUint32 x) = toUint32 x :=
  toUint32_eq_of_lt (toUint32_nonneg x) (toUint32_lt x)

/-- `imul` on small non-negative operands is the plain product (as a signed
32-bit value whose pattern is that product). -/
theorem toUint32_imul_small {x y : ℤ} (hx0 : 0 ≤ x) (hx1 : x < 2 ^ 16)
    (hy0 : 0 ≤ y) (hy1 : y < 2 ^ 16) : toUint32 (imul x y) = x * y := by
  have hxy : x * y < 2 ^ 32 := by
    calc x * y < 2 ^ 16 * 2 ^ 16 := mul_lt_mul'' hx1 hy1 hx0 hy0
    _ = 2 ^ 32 := by norm_num
  rw [imul, toUint32_toInt32, toUint32_eq_of_lt hx0 (by omega),
    toUint32_eq_of_lt hy0 (by omega), toUint32_eq_of_lt (mul_nonneg hx0 hy0) hxy]

theorem imul_small {x y : ℤ} (hx0 : 0 ≤ x) (hx1 : x < 2 ^ 16)
    (hy0 : 0 ≤ y) (hy1 : y < 2 ^ 16) : imul x y = toInt32 (x * y) := by
  rw [imul, toUint32_eq_of_lt hx0 (by omega), toUint32_eq_of_lt hy0 (by omega)]

/-- Pattern of a 16-bit left shift. -/
theorem toUint32_shl16 (x : ℤ) : toUint32 (shl x 16) = 2 ^ 16 * (toUint32 x % 2 ^ 16) := by
  have hsplit : (2 : ℤ) ^ 32 = 2 ^ 16 * 2 ^ 16 := by norm_num
  rw [shl, toUint32_toInt32]
  show toUint32 x * 2 ^ 16 % 2 ^ 32 = _
  rw [hsplit, Int.mul_comm (toUint32 x) ((2 : ℤ) ^ 16),
    Int.mul_emod_mul_of_pos _ _ (by norm_num)]

/-- Congruence: an inner ToInt32 in the last summand does not change the pattern. -/
theorem toUint32_add_add_toInt32 (u v w : ℤ) :
    toUint32 (u + v + toInt32 w) = toUint32 (u + v + w) :=
  toUint32_congr (Int.ModEq.add_left _ (toInt32_modEq w))

/-- Congruence: an inner ToInt32 in the first summand does not change the pattern. -/
theorem toUint32_toInt32_add_add (w u v : ℤ) :
    toUint32 (toInt32 w + u + v) = toUint32 (w + u + v) :=
  toUint32_congr (Int.ModEq.add_right _ (Int.ModEq.add_right _ (toInt32_modEq w)))

/-- Quotient and remainder of a split 64-bit value. -/
theorem split_ediv_emod (Hv Lv : ℤ) (h0 : 0 ≤ Lv) (h1 : Lv < 2 ^ 32) :
    (Hv * 2 ^ 32 + Lv) / 2 ^ 32 = Hv ∧ (Hv * 2 ^ 32 + Lv) % 2 ^ 32 = Lv := by
  omega

/-- `mul` expanded only depends on the 32-bit patterns of its arguments. -/
theorem mul_absorb (a b : ℤ) : mul a b = mul (toUint32 a) (toUint32 b) := by
  simp only [mul, jand, shru, imul, toUint32_idem]

/-- The 16-bit limb decomposition identity behind `mul`. -/
theorem limb_identity (A B : ℤ) :
    A * B =
      (A / 2 ^ 16 * (B / 2 ^ 16) + A / 2 ^ 16 * (B % 2 ^ 16) / 2 ^ 16 +
          (A % 2 ^ 16 * (B % 2 ^ 16) / 2 ^ 16 + A / 2 ^ 16 * (B % 2 ^ 16) % 2 ^ 16 +
              A % 2 ^ 16 * (B / 2 ^ 16)) / 2 ^ 16) * 2 ^ 32 +
        (2 ^ 16 * ((A % 2 ^ 16 * (B % 2 ^ 16) / 2 ^ 16 + A / 2 ^ 16 * (B % 2 ^ 16) % 2 ^ 16 +
            A % 2 ^ 16 * (B / 2 ^ 16)) % 2 ^ 16) +
          A % 2 ^ 16 * (B % 2 ^ 16) % 2 ^ 16) := by
  have hAsp := Int.ediv_add_emod A (2 ^ 16)
  have hBsp := Int.ediv_add_emod B (2 ^ 16)
  have hxsp := Int.ediv_add_emod (A % 2 ^ 16 * (B % 2 ^ 16)) (2 ^ 16)
  have hysp := Int.ediv_add_emod (A / 2 ^ 16 * (B % 2 ^ 16)) (2 ^ 16)
  have hCsp := Int.ediv_add_emod
    (A % 2 ^ 16 * (B % 2 ^ 16) / 2 ^ 16 + A / 2 ^ 16 * (B % 2 ^ 16) % 2 ^ 16 +
      A % 2 ^ 16 * (B / 2 ^ 16)) (2 ^ 16)
  linear_combination (-1 : ℤ) * hxsp - 2 ^ 16 * hysp - 2 ^ 16 * hCsp - B * hAsp -
    (2 ^ 16 * (A / 2 ^ 16) + A % 2 ^ 16) * hBsp

/-- Bound for the middle carry sum of `mul`. -/
theorem carry_bound (X Y Z : ℤ) (hX0 : 0 ≤ X) (hX1 : X < 2 ^ 32) (hZ0 : 0 ≤ Z)
    (hZ1 : Z ≤ 65535 * 65535) :
    0 ≤ X / 2 ^ 16 + Y % 2 ^ 16 + Z ∧ X / 2 ^ 16 + Y % 2 ^ 16 + Z < 2 ^ 32 := by
  omega

/-- Bound for the low 32-bit half recombined from 16-bit pieces. -/
theorem low_part_bound (rc rx : ℤ) (h1 : 0 ≤ rc) (h2 : rc < 2 ^ 16) (h3 : 0 ≤ rx)
    (h4 : rx < 2 ^ 16) : 0 ≤ 2 ^ 16 * rc + rx ∧ 2 ^ 16 * rc + rx < 2 ^ 32 := by
  omega

/-- The high half is bounded when the recombination equals a product below 2^64. -/
theorem high_part_bound (P Hv Lv : ℤ) (key : P = Hv * 2 ^ 32 + Lv) (hP : P < 2 ^ 64)
    (hL0 : 0 ≤ Lv) : Hv < 2 ^ 32 := by
  omega

theorem toNat_two_pow_mul {r : ℤ} (h : 0 ≤ r) :
    ((2 ^ 16 * r : ℤ)).toNat = r.toNat * 2 ^ 16 := by
  omega

theorem toNat_lt_pow16 {r : ℤ} (h1 : r < 2 ^ 16) : r.toNat < 2 ^ 16 := by
  omega

/-- Characterization of the source `mul`: it returns the (high, low) halves of
the exact 64-bit product of the 32-bit patterns of its arguments. -/
theorem mul_spec_aux (A B : ℤ) (hA0 : 0 ≤ A) (hA1 : A < 2 ^ 32)
    (hB0 : 0 ≤ B) (hB1 : B < 2 ^ 32) :
    toUint32 (mul A B).h = A * B / 2 ^ 32 ∧
    toUint32 (mul A B).l = A * B % 2 ^ 32 := by
  have hAu : toUint32 A = A := toUint32_eq_of_lt hA0 hA1
  have hBu : toUint32 B = B := toUint32_eq_of_lt hB0 hB1
  have haL0 : 0 ≤ A % 2 ^ 16 := Int.emod_nonneg _ (by norm_num)
  have haL1 : A % 2 ^ 16 < 2 ^ 16 := Int.emod_lt_of_pos _ (by norm_num)
  have hbL0 : 0 ≤ B % 2 ^ 16 := Int.emod_nonneg _ (by norm_num)
  have hbL1 : B % 2 ^ 16 < 2 ^ 16 := Int.emod_lt_of_pos _ (by norm_num)
  have haH0 : 0 ≤ A / 2 ^ 16 := Int.ediv_nonneg hA0 (by norm_num)
  have haH1 : A / 2 ^ 16 < 2 ^ 16 := by omega
  have hbH0 : 0 ≤ B / 2 ^ 16 := Int.ediv_nonneg hB0 (by norm_num)
  have hbH1 : B / 2 ^ 16 < 2 ^ 16 := by omega
  have hx0 : 0 ≤ A % 2 ^ 16 * (B % 2 ^ 16) := mul_nonneg haL0 hbL0
  have hx1 : A % 2 ^ 16 * (B % 2 ^ 16) < 2 ^ 32 := by
    calc A % 2 ^ 16 * (B % 2 ^ 16) < 2 ^ 16 * 2 ^ 16 := mul_lt_mul'' haL1 hbL1 haL0 hbL0
    _ = 2 ^ 32 := by norm_num
  have hy0 : 0 ≤ A / 2 ^ 16 * (B % 2 ^ 16) := mul_nonneg haH0 hbL0
  have hy1 : A / 2 ^ 16 * (B % 2 ^ 16) < 2 ^ 32 := by
    calc A / 2 ^ 16 * (B % 2 ^ 16) < 2 ^ 16 * 2 ^ 16 := mul_lt_mul'' haH1 hbL1 haH0 hbL0
    _ = 2 ^ 32 := by norm_num
  have hz0 : 0 ≤ A % 2 ^ 16 * (B / 2 ^ 16) := mul_nonneg haL0 hbH0
  have hz1 : A % 2 ^ 16 * (B / 2 ^ 16) ≤ 65535 * 65535 :=
    mul_le_mul (by omega) (by omega) hbH0 (by norm_num)
  have hw0 : 0 ≤ A / 2 ^ 16 * (B / 2 ^ 16) := mul_nonneg haH0 hbH0
  obtain ⟨hC0, hC1⟩ := carry_bound (A % 2 ^ 16 * (B % 2 ^ 16)) (A / 2 ^ 16 * (B % 2 ^ 16))
    (A % 2 ^ 16 * (B / 2 ^ 16)) hx0 hx1 hz0 hz1
  -- rewrite equations for the pieces of the expanded body
  have r1 : jand A 0xffff = A % 2 ^ 16 := by rw [jand_ffff, hAu]
  have r2 : jand B 0xffff = B % 2 ^ 16 := by rw [jand_ffff, hBu]
  have r3 : shru A 16 = A / 2 ^ 16 := by rw [shru, hAu]
  have r4 : shru B 16 = B / 2 ^ 16 := by rw [shru, hBu]
  have r5 : shru (imul (A % 2 ^ 16) (B % 2 ^ 16)) 16 = A % 2 ^ 16 * (B % 2 ^ 16) / 2 ^ 16 := by
    rw [shru, toUint32_imul_small haL0 haL1 hbL0 hbL1]
  have r6 : shru (imul (A / 2 ^ 16) (B % 2 ^ 16)) 16 = A / 2 ^ 16 * (B % 2 ^ 16) / 2 ^ 16 := by
    rw [shru, toUint32_imul_small haH0 haH1 hbL0 hbL1]
  have r7 : jand (imul (A / 2 ^ 16) (B % 2 ^ 16)) 0xffff
      = A / 2 ^ 16 * (B % 2 ^ 16) % 2 ^ 16 := by
    rw [jand_ffff, toUint32_imul_small haH0 haH1 hbL0 hbL1]
  have r8 : jand (imul (A % 2 ^ 16) (B % 2 ^ 16)) 0xffff
      = A % 2 ^ 16 * (B % 2 ^ 16) % 2 ^ 16 := by
    rw [jand_ffff, toUint32_imul_small haL0 haL1 hbL0 hbL1]
  have rz : imul (A % 2 ^ 16) (B / 2 ^ 16) = toInt32 (A % 2 ^ 16 * (B / 2 ^ 16)) :=
    imul_small haL0 haL1 hbH0 hbH1
  have rw' : imul (A / 2 ^ 16) (B / 2 ^ 16) = toInt32 (A / 2 ^ 16 * (B / 2 ^ 16)) :=
    imul_small haH0 haH1 hbH0 hbH1
  -- pattern of the carry word
  have rc : toUint32 (A % 2 ^ 16 * (B % 2 ^ 16) / 2 ^ 16 + A / 2 ^ 16 * (B % 2 ^ 16) % 2 ^ 16 +
      toInt32 (A % 2 ^ 16 * (B / 2 ^ 16)))
      = A % 2 ^ 16 * (B % 2 ^ 16) / 2 ^ 16 + A / 2 ^ 16 * (B % 2 ^ 16) % 2 ^ 16 +
        A % 2 ^ 16 * (B / 2 ^ 16) := by
    rw [toUint32_add_add_toInt32, toUint32_eq_of_lt hC0 hC1]
  have key := limb_identity A B
  obtain ⟨hL0, hL1⟩ := low_part_bound
    ((A % 2 ^ 16 * (B % 2 ^ 16) / 2 ^ 16 + A / 2 ^ 16 * (B % 2 ^ 16) % 2 ^ 16 +
      A % 2 ^ 16 * (B / 2 ^ 16)) % 2 ^ 16)
    (A % 2 ^ 16 * (B % 2 ^ 16) % 2 ^ 16)
    (Int.emod_nonneg _ (by norm_num)) (Int.emod_lt_of_pos _ (by norm_num))
    (Int.emod_nonneg _ (by norm_num)) (Int.emod_lt_of_pos _ (by norm_num))
  have hAB : A * B < 2 ^ 64 := by
    calc A * B < 2 ^ 32 * 2 ^ 32 := mul_lt_mul'' hA1 hB1 hA0 hB0
    _ = 2 ^ 64 := by norm_num
  have hH1 : A / 2 ^ 16 * (B / 2 ^ 16) + A / 2 ^ 16 * (B % 2 ^ 16) / 2 ^ 16 +
      (A % 2 ^ 16 * (B % 2 ^ 16) / 2 ^ 16 + A / 2 ^ 16 * (B % 2 ^ 16) % 2 ^ 16 +
        A % 2 ^ 16 * (B / 2 ^ 16)) / 2 ^ 16 < 2 ^ 32 :=
    high_part_bound _ _ _ key hAB hL0
  have hH0 : 0 ≤ A / 2 ^ 16 * (B / 2 ^ 16) + A / 2 ^ 16 * (B % 2 ^ 16) / 2 ^ 16 +
      (A % 2 ^ 16 * (B % 2 ^ 16) / 2 ^ 16 + A / 2 ^ 16 * (B % 2 ^ 16) % 2 ^ 16 +
        A % 2 ^ 16 * (B / 2 ^ 16)) / 2 ^ 16 :=
    add_nonneg (add_nonneg hw0 (Int.ediv_nonneg hy0 (by norm_num)))
      (Int.ediv_nonneg hC0 (by norm_num))
  have r9 : shru (A % 2 ^ 16 * (B % 2 ^ 16) / 2 ^ 16 + A / 2 ^ 16 * (B % 2 ^ 16) % 2 ^ 16 +
      toInt32 (A % 2 ^ 16 * (B / 2 ^ 16))) 16
      = (A % 2 ^ 16 * (B % 2 ^ 16) / 2 ^ 16 + A / 2 ^ 16 * (B % 2 ^ 16) % 2 ^ 16 +
        A % 2 ^ 16 * (B / 2 ^ 16)) / 2 ^ 16 := by
    rw [shru, rc]
  constructor
  · -- high half
    simp only [mul, r1, r2, r3, r4, r5, r6, r7, rz, rw', r9]
    rw [toUint32_toInt32]
    rw [toUint32_toInt32_add_add, toUint32_eq_of_lt hH0 hH1, key,
      (split_ediv_emod _ _ hL0 hL1).1]
  · -- low half
    simp only [mul, r1, r2, r3, r4, r5, r6, r7, r8, rz]
    rw [toUint32_jor, toUint32_shl16]
    rw [show toUint32 (A % 2 ^ 16 * (B % 2 ^ 16) / 2 ^ 16 +
        A / 2 ^ 16 * (B % 2 ^ 16) % 2 ^ 16 + toInt32 (A % 2 ^ 16 * (B / 2 ^ 16))) % 2 ^ 16
        = (A % 2 ^ 16 * (B % 2 ^ 16) / 2 ^ 16 + A / 2 ^ 16 * (B % 2 ^ 16) % 2 ^ 16 +
          A % 2 ^ 16 * (B / 2 ^ 16)) % 2 ^ 16 from by rw [rc]]
    have hrc0 : 0 ≤ (A % 2 ^ 16 * (B % 2 ^ 16) / 2 ^ 16 +
        A / 2 ^ 16 * (B % 2 ^ 16) % 2 ^ 16 + A % 2 ^ 16 * (B / 2 ^ 16)) % 2 ^ 16 :=
      Int.emod_nonneg _ (by norm_num)
    have hrc1 : (A % 2 ^ 16 * (B % 2 ^ 16) / 2 ^ 16 +
        A / 2 ^ 16 * (B % 2 ^ 16) % 2 ^ 16 + A % 2 ^ 16 * (B / 2 ^ 16)) % 2 ^ 16 < 2 ^ 16 :=
      Int.emod_lt_of_pos _ (by norm_num)
    have hrx0 : 0 ≤ A % 2 ^ 16 * (B % 2 ^ 16) % 2 ^ 16 := Int.emod_nonneg _ (by norm_num)
    have hrx1 : A % 2 ^ 16 * (B % 2 ^ 16) % 2 ^ 16 < 2 ^ 16 :=
      Int.emod_lt_of_pos _ (by norm_num)
    rw [toUint32_eq_of_lt hrx0 (lt_trans hrx1 (by norm_num))]
    rw [toNat_two_pow_mul hrc0]
    rw [nat_lor_eq_add (toNat_lt_pow16 hrx1)]
    rw [key, (split_ediv_emod _ _ hL0 hL1).2]
    simp only [Nat.cast_add, Nat.cast_mul, Nat.cast_pow, Nat.cast_ofNat]
    rw [Int.toNat_of_nonneg hrc0, Int.toNat_of_nonneg hrx0]
    ring

/-- `mul` computes the 64-bit product of the 32-bit patterns of its arguments. -/
theorem mul_spec (a b : ℤ) :
    toUint32 (mul a b).h = toUint32 a * toUint32 b / 2 ^ 32 ∧
    toUint32 (mul a b).l = toUint32 a * toUint32 b % 2 ^ 32 := by
  rw [mul_absorb a b]
  exact mul_spec_aux (toUint32 a) (toUint32 b) (toUint32_nonneg a) (toUint32_lt a)
    (toUint32_nonneg b) (toUint32_lt b)

theorem toUint32_def (x : ℤ) : toUint32 x = x % 2 ^ 32 := rfl

theorem toNat_two_mul {r : ℤ} (h : 0 ≤ r) : ((2 * r : ℤ)).toNat = r.toNat * 2 ^ 1 := by
  omega

/-- Pattern of a one-bit left shift of a 32-bit quantity. -/
theorem shl1_pattern (H : ℤ) : H * 2 ^ 1 % 2 ^ 32 = 2 * (H % 2 ^ 31) := by
  omega

theorem toNat_lt_two_pow_one {r : ℤ} (h1 : r < 2) : r.toNat < 2 ^ 1 := by
  omega

/-- Arithmetic fact behind `mul2`: doubling a 64-bit value, high half. -/
theorem mul2_high_eq (D : ℤ) (h0 : 0 ≤ D) (h1 : D < 2 ^ 64) :
    2 * D / 2 ^ 32 % 2 ^ 32 = 2 * (D / 2 ^ 32 % 2 ^ 31) + D % 2 ^ 32 / 2 ^ 31 := by
  omega

/-- Characterization of the source `mul2`: the (high, low) patterns of
`2 * a * b mod 2^64`. -/
theorem mul2_spec (a b : ℤ) :
    toUint32 (mul2 a b).l = 2 * (toUint32 a * toUint32 b) % 2 ^ 32 ∧
    toUint32 (mul2 a b).h = 2 * (toUint32 a * toUint32 b) / 2 ^ 32 % 2 ^ 32 := by
  obtain ⟨hmh, hml⟩ := mul_spec a b
  have hD0 : 0 ≤ toUint32 a * toUint32 b := mul_nonneg (toUint32_nonneg a) (toUint32_nonneg b)
  have hD1 : toUint32 a * toUint32 b < 2 ^ 64 := by
    calc toUint32 a * toUint32 b < 2 ^ 32 * 2 ^ 32 :=
      mul_lt_mul'' (toUint32_lt a) (toUint32_lt b) (toUint32_nonneg a) (toUint32_nonneg b)
    _ = 2 ^ 64 := by norm_num
  have hH0 : 0 ≤ toUint32 a * toUint32 b / 2 ^ 32 := Int.ediv_nonneg hD0 (by norm_num)
  have hL0 : 0 ≤ toUint32 a * toUint32 b % 2 ^ 32 := Int.emod_nonneg _ (by norm_num)
  have hL1 : toUint32 a * toUint32 b % 2 ^ 32 < 2 ^ 32 := Int.emod_lt_of_pos _ (by norm_num)
  constructor
  · -- low half
    simp only [mul2]
    rw [toUint32_jand_ffffffff, shl, toUint32_toInt32, hml]
    apply toUint32_congr
    calc toUint32 a * toUint32 b % 2 ^ 32 * 2 ^ 1
        ≡ toUint32 a * toUint32 b * 2 ^ 1 [ZMOD 2 ^ 32] :=
      Int.ModEq.mul_right _ (Int.emod_emod_of_dvd _ dvd_rfl)
    _ = 2 * (toUint32 a * toUint32 b) := by ring
  · -- high half
    simp only [mul2]
    rw [toUint32_jand_ffffffff, toUint32_jor]
    have hshl : toUint32 (shl (mul a b).h 1)
        = 2 * (toUint32 a * toUint32 b / 2 ^ 32 % 2 ^ 31) := by
      rw [shl, toUint32_toInt32, hmh, toUint32_def, shl1_pattern]
    have hshr : shru (mul a b).l 31 = toUint32 a * toUint32 b % 2 ^ 32 / 2 ^ 31 := by
      rw [shru, hml]
    have he0 : 0 ≤ toUint32 a * toUint32 b % 2 ^ 32 / 2 ^ 31 :=
      Int.ediv_nonneg hL0 (by norm_num)
    have he1 : toUint32 a * toUint32 b % 2 ^ 32 / 2 ^ 31 < 2 := by
      rw [Int.ediv_lt_iff_lt_mul (by norm_num)]
      calc toUint32 a * toUint32 b % 2 ^ 32 < 2 ^ 32 := hL1
      _ = 2 * 2 ^ 31 := by norm_num
    have hm0 : 0 ≤ toUint32 a * toUint32 b / 2 ^ 32 % 2 ^ 31 := Int.emod_nonneg _ (by norm_num)
    rw [hshl, hshr, toUint32_eq_of_lt he0 (by omega), toNat_two_mul hm0,
      nat_lor_eq_add (toNat_lt_two_pow_one he1), mul2_high_eq _ hD0 hD1]
    simp only [Nat.cast_add, Nat.cast_mul, Nat.cast_ofNat]
    rw [Int.toNat_of_nonneg hm0, Int.toNat_of_nonneg he0]
    ring

/-- Modular congruence for the low half of `blamka`. -/
theorem blamka_low_congr (Ah Al Bh Bl P : ℤ) :
    (Al + Bl + 2 * P % 2 ^ 32) % 2 ^ 32
      = (Ah * 2 ^ 32 + Al + (Bh * 2 ^ 32 + Bl) + 2 * P) % 2 ^ 32 := by
  omega

/-- Arithmetic fact for the high half of `blamka`. -/
theorem blamka_high_eq (Ah Al Bh Bl P R : ℤ) (hR : R = Al + Bl + 2 * P % 2 ^ 32) :
    (Ah + Bh + 2 * P / 2 ^ 32 % 2 ^ 32 + R / 2 ^ 32) % 2 ^ 32
      = (Ah * 2 ^ 32 + Al + (Bh * 2 ^ 32 + Bl) + 2 * P) / 2 ^ 32 % 2 ^ 32 := by
  omega

/-- Recombining the (high, low) patterns into a value modulo 2^64. -/
theorem u64_recombine (S : ℤ) : S / 2 ^ 32 % 2 ^ 32 * 2 ^ 32 + S % 2 ^ 32 = S % 2 ^ 64 := by
  omega

/-- Claim C6: for all 64-bit operands A and B given as (high, low) unsigned
32-bit halves, `blamka Ah Al Bh Bl` returns the (high, low) halves of exactly
`(A + B + 2 * (A mod 2^32) * (B mod 2^32)) mod 2^64`. -/
theorem claim_C6 (Ah Al Bh Bl : ℤ)
    (hAh0 : 0 ≤ Ah) (hAh1 : Ah < 2 ^ 32) (hAl0 : 0 ≤ Al) (hAl1 : Al < 2 ^ 32)
    (hBh0 : 0 ≤ Bh) (hBh1 : Bh < 2 ^ 32) (hBl0 : 0 ≤ Bl) (hBl1 : Bl < 2 ^ 32) :
    (blamka Ah Al Bh Bl).val
      = (Ah * 2 ^ 32 + Al + (Bh * 2 ^ 32 + Bl)
          + 2 * ((Ah * 2 ^ 32 + Al) % 2 ^ 32) * ((Bh * 2 ^ 32 + Bl) % 2 ^ 32)) % 2 ^ 64 := by
  have hA32 : (Ah * 2 ^ 32 + Al) % 2 ^ 32 = Al := (split_ediv_emod Ah Al hAl0 hAl1).2
  have hB32 : (Bh * 2 ^ 32 + Bl) % 2 ^ 32 = Bl := (split_ediv_emod Bh Bl hBl0 hBl1).2
  rw [hA32, hB32]
  obtain ⟨hm2l, hm2h⟩ := mul2_spec Al Bl
  have hAlu : toUint32 Al = Al := toUint32_eq_of_lt hAl0 hAl1
  have hBlu : toUint32 Bl = Bl := toUint32_eq_of_lt hBl0 hBl1
  rw [hAlu, hBlu] at hm2l hm2h
  have hRll : add3L Al Bl (mul2 Al Bl).l = Al + Bl + 2 * (Al * Bl) % 2 ^ 32 := by
    rw [add3L, hAlu, hBlu, hm2l]
  have hlow : toUint32 (blamka Ah Al Bh Bl).l
      = (Ah * 2 ^ 32 + Al + (Bh * 2 ^ 32 + Bl) + 2 * (Al * Bl)) % 2 ^ 32 := by
    simp only [blamka]
    rw [toUint32_toInt32, hRll, toUint32_def, blamka_low_congr Ah Al Bh Bl (Al * Bl)]
  have hhigh : toUint32 (blamka Ah Al Bh Bl).h
      = (Ah * 2 ^ 32 + Al + (Bh * 2 ^ 32 + Bl) + 2 * (Al * Bl)) / 2 ^ 32 % 2 ^ 32 := by
    simp only [blamka, add3H]
    rw [toUint32_toInt32, hRll]
    have hcongr : Ah + Bh + (mul2 Al Bl).h + (Al + Bl + 2 * (Al * Bl) % 2 ^ 32) / 2 ^ 32
        ≡ Ah + Bh + 2 * (Al * Bl) / 2 ^ 32 % 2 ^ 32 +
          (Al + Bl + 2 * (Al * Bl) % 2 ^ 32) / 2 ^ 32 [ZMOD 2 ^ 32] := by
      apply Int.ModEq.add_right
      apply Int.ModEq.add_left
      calc (mul2 Al Bl).h ≡ toUint32 (mul2 Al Bl).h [ZMOD 2 ^ 32] :=
        (toUint32_modEq _).symm
      _ = 2 * (Al * Bl) / 2 ^ 32 % 2 ^ 32 := hm2h
    rw [toUint32_congr hcongr, toUint32_def,
      blamka_high_eq Ah Al Bh Bl (Al * Bl) _ rfl]
  rw [HL.val, hhigh, hlow, u64_recombine]
  ring_nf

/-! ## Lemmas about the indexing engine -/

theorem toInt32_range (x : ℤ) : -2 ^ 31 ≤ toInt32 x ∧ toInt32 x < 2 ^ 31 := by
  unfold toInt32
  omega

theorem mulh_range (a b : ℤ) : -2 ^ 31 ≤ (mul a b).h ∧ (mul a b).h < 2 ^ 31 := by
  simp only [mul]
  exact toInt32_range _

theorem value_eq_pattern {v : ℤ} (h1 : -2 ^ 31 ≤ v) (h2 : v < 2 ^ 31)
    (h3 : toUint32 v < 2 ^ 31) : v = toUint32 v := by
  unfold toUint32 at *
  omega

/-- The pseudo-random offset `rel` computed by `indexAlpha` lies in `[0, area)`. -/
theorem indexRel_bounds (area randL : ℤ) (h1 : 1 ≤ area) (h2 : area < 2 ^ 31) :
    0 ≤ indexRel area randL ∧ indexRel area randL ≤ area - 1 := by
  have hpat : toUint32 (mul area (mul randL randL).h).h
      = toUint32 area * toUint32 (mul randL randL).h / 2 ^ 32 :=
    (mul_spec area (mul randL randL).h).1
  have hau : toUint32 area = area := toUint32_eq_of_lt (by omega) (by omega)
  rw [hau] at hpat
  have ht0 : 0 ≤ toUint32 (mul randL randL).h := toUint32_nonneg _
  have ht1 : toUint32 (mul randL randL).h < 2 ^ 32 := toUint32_lt _
  have hM0 : 0 ≤ area * toUint32 (mul randL randL).h / 2 ^ 32 :=
    Int.ediv_nonneg (mul_nonneg (by omega) ht0) (by norm_num)
  have hM1 : area * toUint32 (mul randL randL).h / 2 ^ 32 < area := by
    rw [Int.ediv_lt_iff_lt_mul (by norm_num)]
    exact mul_lt_mul_of_pos_left ht1 (by omega)
  obtain ⟨hr1, hr2⟩ := mulh_range area (mul randL randL).h
  have hv := value_eq_pattern hr1 hr2 (by rw [hpat]; exact lt_trans hM1 h2)
  unfold indexRel
  constructor
  · linarith [hv, hpat, hM1]
  · linarith [hv, hpat, hM0]

/-- JavaScript remainder of a non-negative value that wraps at most once. -/
theorem tmod_once (x lane : ℤ) (h0 : 0 ≤ x) (hp : 0 < lane) (h2 : x < 2 * lane) :
    x.tmod lane = if x < lane then x else x - lane := by
  rw [Int.tmod_eq_emod h0 (by omega)]
  rcases lt_or_le x lane with h | h
  · rw [if_pos h, Int.emod_eq_of_lt h0 h]
  · rw [if_neg (by omega)]
    have h3 : x % lane = (x - lane) % lane := by
      conv_lhs => rw [show x = x - lane + 1 * lane from by ring]
      rw [Int.add_mul_emod_self]
    rw [h3, Int.emod_eq_of_lt (by omega) (by omega)]

/-- Uniqueness of the (lane, column) decomposition of a block index. -/
theorem lane_unique (lane a b x y : ℤ) (hp : 0 < lane) (hx0 : 0 ≤ x) (hx1 : x < lane)
    (hy0 : 0 ≤ y) (hy1 : y < lane) (he : lane * a + x = lane * b + y) : a = b ∧ x = y := by
  have ha : (lane * a + x) / lane = a := by
    rw [add_comm, Int.add_mul_ediv_left x a (ne_of_gt hp),
      Int.ediv_eq_zero_of_lt hx0 hx1, zero_add]
  have hb : (lane * b + y) / lane = b := by
    rw [add_comm, Int.add_mul_ediv_left y b (ne_of_gt hp),
      Int.ediv_eq_zero_of_lt hy0 hy1, zero_add]
  have hab : a = b := by rw [← ha, ← hb, he]
  subst hab
  exact ⟨rfl, by linarith⟩

theorem lane_decomp_ne (lane a b x y : ℤ) (hp : 0 < lane) (hx0 : 0 ≤ x) (hx1 : x < lane)
    (hy0 : 0 ≤ y) (hy1 : y < lane) (h : a ≠ b ∨ x ≠ y) : lane * a + x ≠ lane * b + y := by
  intro he
  obtain ⟨h1, h2⟩ := lane_unique lane a b x y hp hx0 hx1 hy0 hy1 he
  rcases h with h | h
  · exact h h1
  · exact h h2

/-- Full characterization of `indexAlpha` in a valid driver context: the result
is a column in `[0, laneLen)` that avoids the previous block's column (same
lane), avoids the still-unwritten tail of the current segment, and in pass 0
stays strictly before the current position. -/
theorem indexAlpha_char (r s laneLen segmentLen index : ℕ) (randL : ℤ) (sameLane : Bool)
    (hsl : 2 ≤ segmentLen) (hll : laneLen = 4 * segmentLen) (hllB : laneLen < 2 ^ 31)
    (hs : s < 4) (hidx : index < segmentLen) (hstart : r = 0 → s = 0 → 2 ≤ index)
    (hsame00 : r = 0 → s = 0 → sameLane = true) :
    0 ≤ indexAlpha r s laneLen segmentLen index randL sameLane ∧
    indexAlpha r s laneLen segmentLen index randL sameLane < laneLen ∧
    (sameLane = true → s * segmentLen + index = 0 →
      indexAlpha r s laneLen segmentLen index randL sameLane ≠ (laneLen : ℤ) - 1) ∧
    (sameLane = true → 0 < s * segmentLen + index →
      indexAlpha r s laneLen segmentLen index randL sameLane
        ≠ (s : ℤ) * segmentLen + index - 1) ∧
    (sameLane = true →
      indexAlpha r s laneLen segmentLen index randL sameLane + 2
          ≤ (s : ℤ) * segmentLen + index ∨
        ((s : ℤ) + 1) * segmentLen ≤ indexAlpha r s laneLen segmentLen index randL sameLane) ∧
    (sameLane = false →
      indexAlpha r s laneLen segmentLen index randL sameLane < (s : ℤ) * segmentLen ∨
        ((s : ℤ) + 1) * segmentLen ≤ indexAlpha r s laneLen segmentLen index randL sameLane) ∧
    (r = 0 →
      indexAlpha r s laneLen segmentLen index randL sameLane
        < (s : ℤ) * segmentLen + index) := by
  subst hll
  rcases Nat.eq_zero_or_pos r with hr | hr
  · subst hr
    have hS : indexStartPos 0 s segmentLen = 0 := by
      simp [indexStartPos]
    rcases Nat.eq_zero_or_pos s with hs0 | hs0
    · subst hs0
      have hsame := hsame00 rfl rfl
      subst hsame
      have hidx2 : 2 ≤ index := hstart rfl rfl
      have hAeq : indexArea 0 0 (4 * segmentLen) segmentLen index true = (index : ℤ) - 1 := by
        simp [indexArea]
        try ring
      obtain ⟨h5, h6⟩ := indexRel_bounds (indexArea 0 0 (4 * segmentLen) segmentLen index true)
        randL (by rw [hAeq]; omega) (by rw [hAeq]; omega)
      simp only [indexAlpha]
      rw [hS, tmod_once _ _ (by omega) (by omega) (by omega)]
      split_ifs with hw <;>
        refine ⟨by omega, by omega, ?_, ?_, ?_, ?_, ?_⟩ <;> intro h <;> try intro h2
      all_goals first | omega | simp at h
    · have hs0' : s ≠ 0 := by omega
      cases sameLane
      · rcases Nat.eq_zero_or_pos index with hi | hi
        · subst hi
          have hAeq : indexArea 0 s (4 * segmentLen) segmentLen 0 false
              = (s : ℤ) * segmentLen - 1 := by
            simp [indexArea, hs0']
            try ring
          obtain ⟨h5, h6⟩ :=
            indexRel_bounds (indexArea 0 s (4 * segmentLen) segmentLen 0 false) randL
              (by rw [hAeq]; interval_cases s <;> omega)
              (by rw [hAeq]; interval_cases s <;> omega)
          simp only [indexAlpha]
          interval_cases s <;>
            rw [hS, tmod_once _ _ (by omega) (by omega) (by omega)] <;>
            split_ifs with hw <;>
            refine ⟨by omega, by omega, ?_, ?_, ?_, ?_, ?_⟩ <;> intro h <;> try intro h2
          all_goals first | omega | simp at h
        · have hne : index ≠ 0 := by omega
          have hAeq : indexArea 0 s (4 * segmentLen) segmentLen index false
              = (s : ℤ) * segmentLen := by
            simp [indexArea, hs0', hne]
            try ring
          obtain ⟨h5, h6⟩ :=
            indexRel_bounds (indexArea 0 s (4 * segmentLen) segmentLen index false) randL
              (by rw [hAeq]; interval_cases s <;> omega)
              (by rw [hAeq]; interval_cases s <;> omega)
          simp only [indexAlpha]
          interval_cases s <;>
            rw [hS, tmod_once _ _ (by omega) (by omega) (by omega)] <;>
            split_ifs with hw <;>
            refine ⟨by omega, by omega, ?_, ?_, ?_, ?_, ?_⟩ <;> intro h <;> try intro h2
          all_goals first | omega | simp at h
      · have hAeq : indexArea 0 s (4 * segmentLen) segmentLen index true
            = (s : ℤ) * segmentLen + index - 1 := by
          simp [indexArea, hs0']
          try ring
        obtain ⟨h5, h6⟩ :=
          indexRel_bounds (indexArea 0 s (4 * segmentLen) segmentLen index true) randL
            (by rw [hAeq]; interval_cases s <;> omega)
            (by rw [hAeq]; interval_cases s <;> omega)
        simp only [indexAlpha]
        interval_cases s <;>
          rw [hS, tmod_once _ _ (by omega) (by omega) (by omega)] <;>
          split_ifs with hw <;>
          refine ⟨by omega, by omega, ?_, ?_, ?_, ?_, ?_⟩ <;> intro h <;> try intro h2
        all_goals first | omega | simp at h
  · have hrne : r ≠ 0 := by omega
    by_cases hs3 : s = 3
    · subst hs3
      have hS : indexStartPos r 3 segmentLen = 0 := by
        simp [indexStartPos, ARGON2_SYNC_POINTS]
      cases sameLane
      · rcases Nat.eq_zero_or_pos index with hi | hi
        · subst hi
          have hAeq : indexArea r 3 (4 * segmentLen) segmentLen 0 false
              = 3 * (segmentLen : ℤ) - 1 := by
            simp [indexArea, hrne]
            try ring
          obtain ⟨h5, h6⟩ :=
            indexRel_bounds (indexArea r 3 (4 * segmentLen) segmentLen 0 false) randL
              (by rw [hAeq]; omega) (by rw [hAeq]; omega)
          simp only [indexAlpha]
          rw [hS, tmod_once _ _ (by omega) (by omega) (by omega)]
          split_ifs with hw <;>
            refine ⟨by omega, by omega, ?_, ?_, ?_, ?_, ?_⟩ <;> intro h <;> try intro h2
          all_goals first | omega | simp at h
        · have hne : index ≠ 0 := by omega
          have hAeq : indexArea r 3 (4 * segmentLen) segmentLen index false
              = 3 * (segmentLen : ℤ) := by
            simp [indexArea, hrne, hne]
            try ring
          obtain ⟨h5, h6⟩ :=
            indexRel_bounds (indexArea r 3 (4 * segmentLen) segmentLen index false) randL
              (by rw [hAeq]; omega) (by rw [hAeq]; omega)
          simp only [indexAlpha]
          rw [hS, tmod_once _ _ (by omega) (by omega) (by omega)]
          split_ifs with hw <;>
            refine ⟨by omega, by omega, ?_, ?_, ?_, ?_, ?_⟩ <;> intro h <;> try intro h2
          all_goals first | omega | simp at h
      · have hAeq : indexArea r 3 (4 * segmentLen) segmentLen index true
            = 3 * (segmentLen : ℤ) + index - 1 := by
          simp [indexArea, hrne]
          try ring
        obtain ⟨h5, h6⟩ :=
          indexRel_bounds (indexArea r 3 (4 * segmentLen) segmentLen index true) randL
            (by rw [hAeq]; omega) (by rw [hAeq]; omega)
        simp only [indexAlpha]
        rw [hS, tmod_once _ _ (by omega) (by omega) (by omega)]
        split_ifs with hw <;>
          refine ⟨by omega, by omega, ?_, ?_, ?_, ?_, ?_⟩ <;> intro h <;> try intro h2
        all_goals first | omega | simp at h
    · have hs2 : s < 3 := by omega
      have hS : indexStartPos r s segmentLen = ((s : ℤ) + 1) * segmentLen := by
        simp [indexStartPos, ARGON2_SYNC_POINTS, hrne, hs3]
      cases sameLane
      · rcases Nat.eq_zero_or_pos index with hi | hi
        · subst hi
          have hAeq : indexArea r s (4 * segmentLen) segmentLen 0 false
              = 3 * (segmentLen : ℤ) - 1 := by
            simp [indexArea, hrne]
            try ring
          obtain ⟨h5, h6⟩ :=
            indexRel_bounds (indexArea r s (4 * segmentLen) segmentLen 0 false) randL
              (by rw [hAeq]; omega) (by rw [hAeq]; omega)
          simp only [indexAlpha]
          interval_cases s <;>
            rw [hS, tmod_once _ _ (by omega) (by omega) (by omega)] <;>
            split_ifs with hw <;>
            refine ⟨by omega, by omega, ?_, ?_, ?_, ?_, ?_⟩ <;> intro h <;> try intro h2
          all_goals first | omega | simp at h
        · have hne : index ≠ 0 := by omega
          have hAeq : indexArea r s (4 * segmentLen) segmentLen index false
              = 3 * (segmentLen : ℤ) := by
            simp [indexArea, hrne, hne]
            try ring
          obtain ⟨h5, h6⟩ :=
            indexRel_bounds (indexArea r s (4 * segmentLen) segmentLen index false) randL
              (by rw [hAeq]; omega) (by rw [hAeq]; omega)
          simp only [indexAlpha]
          interval_cases s <;>
            rw [hS, tmod_once _ _ (by omega) (by omega) (by omega)] <;>
            split_ifs with hw <;>
            refine ⟨by omega, by omega, ?_, ?_, ?_, ?_, ?_⟩ <;> intro h <;> try intro h2
          all_goals first | omega | simp at h
      · have hAeq : indexArea r s (4 * segmentLen) segmentLen index true
            = 3 * (segmentLen : ℤ) + index - 1 := by
          simp [indexArea, hrne]
          try ring
        obtain ⟨h5, h6⟩ :=
          indexRel_bounds (indexArea r s (4 * segmentLen) segmentLen index true) randL
            (by rw [hAeq]; omega) (by rw [hAeq]; omega)
        simp only [indexAlpha]
        interval_cases s <;>
          rw [hS, tmod_once _ _ (by omega) (by omega) (by omega)] <;>
          split_ifs with hw <;>
          refine ⟨by omega, by omega, ?_, ?_, ?_, ?_, ?_⟩ <;> intro h <;> try intro h2
        all_goals first | omega | simp at h

/-- Value of `prevOffset` at a decomposed block position. -/
theorem prevOffset_val (l col laneLen : ℕ) (h1 : 0 < laneLen) (h2 : col < laneLen) :
    prevOffset (l * laneLen + col) laneLen
      = if col = 0 then l * laneLen + laneLen - 1 else l * laneLen + col - 1 := by
  rw [prevOffset]
  have hm : (l * laneLen + col) % laneLen = col := by
    rw [add_comm, Nat.mul_comm, Nat.add_mul_mod_self_left, Nat.mod_eq_of_lt h2]
  rw [hm]
  by_cases hc : col = 0
  · subst hc
    simp
  · rw [if_pos hc, if_neg hc]

/-- Claim C3: for every produced block at coordinates (pass `r`, lane `l`,
segment `s`, `index`), the reference block `laneLen * refLane + refPos`
selected via `indexAlpha` is a block already written earlier in the traversal
order — a prior pass, a prior segment of this pass, or an earlier block of
the current segment of the same lane — and is never the immediately previous
block `prev` in the same lane (and never the current block itself). -/
theorem claim_C3 (r s l index laneLen segmentLen lanes : ℕ) (randL randH : ℤ)
    (hsl : 2 ≤ segmentLen) (hll : laneLen = 4 * segmentLen) (hllB : laneLen < 2 ^ 31)
    (hl : l < lanes) (hs : s < 4) (hidx : index < segmentLen)
    (hstart : r = 0 → s = 0 → 2 ≤ index) (hrandH : 0 ≤ randH) (rl rp : ℤ)
    (hrl : rl = refLane r s l lanes randH)
    (hrp : rp = indexAlpha r s laneLen segmentLen index randL (rl == (l : ℤ))) :
    (0 ≤ rl ∧ rl < lanes) ∧ (0 ≤ rp ∧ rp < laneLen) ∧
    (laneLen : ℤ) * rl + rp
        ≠ (prevOffset (blockOffset l laneLen s segmentLen index) laneLen : ℤ) ∧
    (laneLen : ℤ) * rl + rp ≠ (blockOffset l laneLen s segmentLen index : ℤ) ∧
    (r = 0 ∧ s = 0 → rl = l) ∧
    (r = 0 → (rl = l ∧ rp + 2 ≤ (s : ℤ) * segmentLen + index) ∨
      (rl ≠ (l : ℤ) ∧ rp < (s : ℤ) * segmentLen)) ∧
    (0 < r →
      (rl = l → rp + 2 ≤ (s : ℤ) * segmentLen + index ∨ ((s : ℤ) + 1) * segmentLen ≤ rp) ∧
      (rl ≠ (l : ℤ) → rp < (s : ℤ) * segmentLen ∨ ((s : ℤ) + 1) * segmentLen ≤ rp)) := by
  have hlanes : 0 < lanes := by omega
  have hllpos : 0 < laneLen := by omega
  have hrl01 : 0 ≤ rl ∧ rl < lanes := by
    rw [hrl, refLane]
    split_ifs with hc
    · constructor
      · positivity
      · exact_mod_cast hl
    · exact ⟨Int.tmod_nonneg _ hrandH,
        Int.tmod_lt_of_pos randH (by exact_mod_cast hlanes)⟩
  have hsame00 : r = 0 → s = 0 → (rl == (l : ℤ)) = true := by
    intro h1 h2
    rw [hrl, refLane, if_pos ⟨h1, h2⟩]
    exact beq_self_eq_true _
  obtain ⟨c1, c2, c3, c4, c5, c6, c7⟩ :=
    indexAlpha_char r s laneLen segmentLen index randL (rl == (l : ℤ))
      hsl hll hllB hs hidx hstart hsame00
  rw [← hrp] at c1 c2 c3 c4 c5 c6 c7
  have hcol : s * segmentLen + index < laneLen := by
    subst hll
    interval_cases s <;> omega
  have hBO : blockOffset l laneLen s segmentLen index = l * laneLen + (s * segmentLen + index) := by
    rw [blockOffset, Nat.add_assoc]
  have hBOz : (blockOffset l laneLen s segmentLen index : ℤ)
      = (laneLen : ℤ) * l + ((s : ℤ) * segmentLen + index) := by
    rw [hBO]
    push_cast
    ring
  have hcol2 : (s : ℤ) * segmentLen + index < ((s : ℤ) + 1) * segmentLen := by
    interval_cases s <;> push_cast <;> omega
  refine ⟨hrl01, ⟨c1, c2⟩, ?_, ?_, ?_, ?_, ?_⟩
  · -- never the previous block
    by_cases hrll : rl = (l : ℤ)
    · have hbt : (rl == (l : ℤ)) = true := beq_iff_eq.mpr hrll
      rcases Nat.eq_zero_or_pos (s * segmentLen + index) with hc0 | hc0
      · have hPO : (prevOffset (blockOffset l laneLen s segmentLen index) laneLen : ℤ)
            = (laneLen : ℤ) * l + ((laneLen : ℤ) - 1) := by
          rw [hBO, prevOffset_val l _ laneLen hllpos hcol, if_pos hc0]
          push_cast [Nat.cast_sub (le_trans (show 1 ≤ laneLen by omega)
            (Nat.le_add_left _ _))]
          ring
        rw [hPO]
        exact lane_decomp_ne _ rl l rp _ (by exact_mod_cast hllpos) c1 c2
          (by omega) (by omega) (Or.inr (c3 hbt hc0))
      · have hPO : (prevOffset (blockOffset l laneLen s segmentLen index) laneLen : ℤ)
            = (laneLen : ℤ) * l + ((s : ℤ) * segmentLen + index - 1) := by
          rw [hBO, prevOffset_val l _ laneLen hllpos hcol, if_neg (by omega)]
          push_cast [Nat.cast_sub (le_trans (show 1 ≤ s * segmentLen + index by omega)
            (Nat.le_add_left _ _))]
          ring
        rw [hPO]
        refine lane_decomp_ne _ rl l rp _ (by exact_mod_cast hllpos) c1 c2 ?_ ?_
          (Or.inr (c4 hbt hc0))
        · have : 1 ≤ (s : ℤ) * segmentLen + index := by exact_mod_cast hc0
          omega
        · have : (s : ℤ) * segmentLen + index < (laneLen : ℤ) := by exact_mod_cast hcol
          omega
    · rcases Nat.eq_zero_or_pos (s * segmentLen + index) with hc0 | hc0
      · have hPO : (prevOffset (blockOffset l laneLen s segmentLen index) laneLen : ℤ)
            = (laneLen : ℤ) * l + ((laneLen : ℤ) - 1) := by
          rw [hBO, prevOffset_val l _ laneLen hllpos hcol, if_pos hc0]
          push_cast [Nat.cast_sub (le_trans (show 1 ≤ laneLen by omega)
            (Nat.le_add_left _ _))]
          ring
        rw [hPO]
        exact lane_decomp_ne _ rl l rp _ (by exact_mod_cast hllpos) c1 c2
          (by omega) (by omega) (Or.inl hrll)
      · have hPO : (prevOffset (blockOffset l laneLen s segmentLen index) laneLen : ℤ)
            = (laneLen : ℤ) * l + ((s : ℤ) * segmentLen + index - 1) := by
          rw [hBO, prevOffset_val l _ laneLen hllpos hcol, if_neg (by omega)]
          push_cast [Nat.cast_sub (le_trans (show 1 ≤ s * segmentLen + index by omega)
            (Nat.le_add_left _ _))]
          ring
        rw [hPO]
        refine lane_decomp_ne _ rl l rp _ (by exact_mod_cast hllpos) c1 c2 ?_ ?_
          (Or.inl hrll)
        · have : 1 ≤ (s : ℤ) * segmentLen + index := by exact_mod_cast hc0
          omega
        · have : (s : ℤ) * segmentLen + index < (laneLen : ℤ) := by exact_mod_cast hcol
          omega
  · -- never the current block
    rw [hBOz]
    by_cases hrll : rl = (l : ℤ)
    · have hbt : (rl == (l : ℤ)) = true := beq_iff_eq.mpr hrll
      refine lane_decomp_ne _ rl l rp _ (by exact_mod_cast hllpos) c1 c2 ?_ ?_ ?_
      · positivity
      · have : (s : ℤ) * segmentLen + index < (laneLen : ℤ) := by exact_mod_cast hcol
        omega
      · refine Or.inr ?_
        rcases c5 hbt with h | h
        · omega
        · omega
    · exact lane_decomp_ne _ rl l rp _ (by exact_mod_cast hllpos) c1 c2
        (by positivity)
        (by have : (s : ℤ) * segmentLen + index < (laneLen : ℤ) := by exact_mod_cast hcol
            omega)
        (Or.inl hrll)
  · -- first segment of first pass references the own lane
    intro hc
    rw [hrl, refLane, if_pos hc]
  · -- pass 0: reference strictly before the current position
    intro h0
    by_cases hrll : rl = (l : ℤ)
    · refine Or.inl ⟨hrll, ?_⟩
      rcases c5 (beq_iff_eq.mpr hrll) with h | h
      · exact h
      · have := c7 h0
        omega
    · refine Or.inr ⟨hrll, ?_⟩
      rcases c6 (beq_eq_false_iff_ne.mpr hrll) with h | h
      · exact h
      · have := c7 h0
        omega
  · -- later passes
    intro h0
    constructor
    · intro hrll
      exact c5 (beq_iff_eq.mpr hrll)
    · intro hrll
      exact c6 (beq_eq_false_iff_ne.mpr hrll)

/-- Witness for claim C3 at concrete driver coordinates. -/
theorem claim_C3_witness :
    (0 ≤ refLane 1 2 0 2 123456789 ∧ refLane 1 2 0 2 123456789 < 2) ∧
    (0 ≤ indexAlpha 1 2 8 2 1 987654321 (refLane 1 2 0 2 123456789 == (0 : ℤ)) ∧
      indexAlpha 1 2 8 2 1 987654321 (refLane 1 2 0 2 123456789 == (0 : ℤ)) < 8) ∧
    (8 : ℤ) * refLane 1 2 0 2 123456789
        + indexAlpha 1 2 8 2 1 987654321 (refLane 1 2 0 2 123456789 == (0 : ℤ))
      ≠ (prevOffset (blockOffset 0 8 2 2 1) 8 : ℤ) ∧
    (8 : ℤ) * refLane 1 2 0 2 123456789
        + indexAlpha 1 2 8 2 1 987654321 (refLane 1 2 0 2 123456789 == (0 : ℤ))
      ≠ (blockOffset 0 8 2 2 1 : ℤ) ∧
    (1 = 0 ∧ 2 = 0 → refLane 1 2 0 2 123456789 = 0) ∧
    (1 = 0 → (refLane 1 2 0 2 123456789 = 0 ∧
        indexAlpha 1 2 8 2 1 987654321 (refLane 1 2 0 2 123456789 == (0 : ℤ)) + 2
          ≤ (2 : ℤ) * 2 + 1) ∨
      (refLane 1 2 0 2 123456789 ≠ (0 : ℤ) ∧
        indexAlpha 1 2 8 2 1 987654321 (refLane 1 2 0 2 123456789 == (0 : ℤ))
          < (2 : ℤ) * 2)) ∧
    (0 < 1 →
      (refLane 1 2 0 2 123456789 = 0 →
        indexAlpha 1 2 8 2 1 987654321 (refLane 1 2 0 2 123456789 == (0 : ℤ)) + 2
            ≤ (2 : ℤ) * 2 + 1 ∨
          ((2 : ℤ) + 1) * 2
            ≤ indexAlpha 1 2 8 2 1 987654321 (refLane 1 2 0 2 123456789 == (0 : ℤ))) ∧
      (refLane 1 2 0 2 123456789 ≠ (0 : ℤ) →
        indexAlpha 1 2 8 2 1 987654321 (refLane 1 2 0 2 123456789 == (0 : ℤ))
            < (2 : ℤ) * 2 ∨
          ((2 : ℤ) + 1) * 2
            ≤ indexAlpha 1 2 8 2 1 987654321 (refLane 1 2 0 2 123456789 == (0 : ℤ)))) :=
  claim_C3 1 2 0 1 8 2 2 987654321 123456789 (by decide) (by decide) (by decide)
    (by decide) (by decide) (by decide) (by omega) (by decide)
    (refLane 1 2 0 2 123456789)
    (indexAlpha 1 2 8 2 1 987654321 (refLane 1 2 0 2 123456789 == (0 : ℤ))) rfl rfl

/-- Witness for claim C6 at a concrete 64-bit input pair. -/
theorem claim_C6_witness :
    (blamka 4022250974 2882400018 305419896 2271560481).val
      = (4022250974 * 2 ^ 32 + 2882400018 + (305419896 * 2 ^ 32 + 2271560481)
          + 2 * ((4022250974 * 2 ^ 32 + 2882400018) % 2 ^ 32)
              * ((305419896 * 2 ^ 32 + 2271560481) % 2 ^ 32)) % 2 ^ 64 :=
  claim_C6 4022250974 2882400018 305419896 2271560481 (by decide) (by decide) (by decide)
    (by decide) (by decide) (by decide) (by decide) (by decide)

/-! ## Fold and iteration helpers -/

/-- The first component of a fold whose step acts componentwise. -/
theorem foldl_fst {α β ι : Type} (f : α → ι → α) (h : α × β → ι → α × β)
    (hh : ∀ q i, (h q i).1 = f q.1 i) :
    ∀ (l : List ι) (q : α × β), (l.foldl h q).1 = l.foldl f q.1 := by
  intro l
  induction l with
  | nil => intro q; rfl
  | cons x xs ih =>
    intro q
    rw [List.foldl_cons, List.foldl_cons, ← hh q x]
    exact ih (h q x)

/-- The second component of a fold whose step acts componentwise. -/
theorem foldl_snd {α β ι : Type} (g : β → ι → β) (h : α × β → ι → α × β)
    (hh : ∀ q i, (h q i).2 = g q.2 i) :
    ∀ (l : List ι) (q : α × β), (l.foldl h q).2 = l.foldl g q.2 := by
  intro l
  induction l with
  | nil => intro q; rfl
  | cons x xs ih =>
    intro q
    rw [List.foldl_cons, List.foldl_cons, ← hh q x]
    exact ih (h q x)

/-- A fold that ignores the list elements is an iteration of its step. -/
theorem foldl_const {α ι : Type} (g : α → α) :
    ∀ (l : List ι) (a : α), l.foldl (fun b _ => g b) a = iterN g l.length a := by
  intro l
  induction l with
  | nil => intro a; rfl
  | cons x xs ih => intro a; rw [List.foldl_cons, List.length_cons]; exact ih (g a)

/-- Iterations compose additively. -/
theorem iterN_add {α : Type} (f : α → α) :
    ∀ (m n : ℕ) (a : α), iterN f (m + n) a = iterN f n (iterN f m a) := by
  intro m
  induction m with
  | zero => intro n a; rw [Nat.zero_add]; rfl
  | succ m ih =>
    intro n a
    have h1 : m + 1 + n = (m + n) + 1 := by omega
    rw [h1]
    exact ih n (f a)

/-- Iterating an iteration multiplies the counts. -/
theorem iterN_iterN {α : Type} (f : α → α) (c : ℕ) :
    ∀ (n : ℕ) (a : α), iterN (iterN f c) n a = iterN f (n * c) a := by
  intro n
  induction n with
  | zero => intro a; rw [Nat.zero_mul]; rfl
  | succ n ih =>
    intro a
    have h1 : iterN (iterN f c) (n + 1) a = iterN (iterN f c) n (iterN f c a) := rfl
    rw [h1, ih (iterN f c a), ← iterN_add, Nat.succ_mul, Nat.add_comm (n * c) c]

/-- A fold preserves an invariant preserved by its step. -/
theorem foldl_inv {α ι : Type} (Q : α → Prop) (f : α → ι → α)
    (hf : ∀ a i, Q a → Q (f a i)) :
    ∀ (l : List ι) (a : α), Q a → Q (l.foldl f a) := by
  intro l
  induction l with
  | nil => intro a ha; exact ha
  | cons x xs ih => intro a ha; rw [List.foldl_cons]; exact ih (f a x) (hf a x ha)

/-- A fold of per-element iterations of a single step is one iteration of the
summed counts. -/
theorem foldl_iterN {α ι : Type} (f : α → α) (k : ι → ℕ) :
    ∀ (l : List ι) (a : α),
      l.foldl (fun b x => iterN f (k x) b) a = iterN f (l.map k).sum a := by
  intro l
  induction l with
  | nil => intro a; rfl
  | cons x xs ih =>
    intro a
    rw [List.foldl_cons, List.map_cons, List.sum_cons, iterN_add]
    exact ih (iterN f (k x) a)

/-- Results under a shared validation guard have equal success flags as soon
as the guarded tails do. -/
theorem isOk_ite {E A : Type} (c : Prop) [Decidable c] (e : E) (x y : Except E A)
    (h : x.isOk = y.isOk) :
    (if c then Except.error e else x).isOk = (if c then Except.error e else y).isOk := by
  by_cases hc : c
  · rw [if_pos hc, if_pos hc]
  · rw [if_neg hc, if_neg hc]; exact h

/-! ## Option-merging congruences -/

/-- Changing only the `key` field of the options changes only the `key` field
of the merged record: no validation inspects it. -/
theorem initOpts_key (opts : ArgonOpts) (key : Option (List ℕ)) :
    initOpts { opts with key := key }
      = (initOpts opts).map (fun mo => { mo with key := key }) := by
  simp only [initOpts]
  split_ifs <;> rfl

/-- Changing only the `personalization` field of the options changes only the
`personalization` field of the merged record: no validation inspects it. -/
theorem initOpts_pers (opts : ArgonOpts) (pers : Option (List ℕ)) :
    initOpts { opts with personalization := pers }
      = (initOpts opts).map (fun mo => { mo with personalization := pers }) := by
  simp only [initOpts]
  split_ifs <;> rfl

/-- Changing the `key` and `personalization` fields of the options changes
only those fields of the merged record. -/
theorem initOpts_kp (opts : ArgonOpts) (key pers : Option (List ℕ)) :
    initOpts { opts with key := key, personalization := pers }
      = (initOpts opts).map (fun mo => { mo with key := key, personalization := pers }) := by
  simp only [initOpts]
  split_ifs <;> rfl

/-- Changing the `asyncTick` and `onProgress` fields of the options changes
only those fields of the merged record (with the `asyncTick` default
applied). -/
theorem initOpts_tick (opts : ArgonOpts) (a : Option ℤ) (b : Bool) :
    initOpts { opts with asyncTick := a, onProgress := b }
      = (initOpts opts).map (fun mo => { mo with asyncTick := a.getD 10, onProgress := b }) := by
  simp only [initOpts]
  split_ifs <;> rfl

/-! ## Output length of the variable-length hash -/

/-- The tail loop of `Hp` emits exactly `dkLen - pos` bytes, provided the
abstract hasher honours its output-length parameter. -/
theorem HpLoop_length (H : List ℕ → ℕ → List ℕ) (hH : ∀ y k, (H y k).length = k) :
    ∀ (fuel : ℕ) (V : List ℕ) (pos dkLen : ℕ), dkLen - pos = fuel →
      (HpLoop H V pos dkLen).length = dkLen - pos := by
  intro fuel
  induction fuel using Nat.strong_induction_on with
  | _ fuel ih =>
    intro V pos dkLen hf
    rw [HpLoop]
    split_ifs with h
    · rw [List.length_append, List.length_take, hH,
        ih (dkLen - (pos + 32)) (by omega) (H V 64) (pos + 32) dkLen rfl]
      omega
    · rw [hH]

/-- `Hp` emits exactly `dkLen` bytes, provided the abstract hasher honours its
output-length parameter. -/
theorem Hp_length (H : List ℕ → ℕ → List ℕ) (hH : ∀ y k, (H y k).length = k)
    (A : List ℕ) (dkLen : ℕ) : (Hp H A dkLen).length = dkLen := by
  simp only [Hp]
  split_ifs with h
  · exact hH _ _
  · rw [List.length_append, List.length_take, hH,
      HpLoop_length H hH (dkLen - 32) (H (le32 dkLen ++ A) 64) 32 dkLen rfl]
    omega

/-! ## Driver fold decompositions -/

theorem laneStep_fst (laneLen segmentLen lanes : ℕ) (dI nX : Bool) (r s : ℕ)
    (onP : Bool) (tB cP : ℕ) (st : MemState × ProgState) (l : ℕ) :
    (laneStep laneLen segmentLen lanes dI nX r s onP tB cP st l).1
      = memLaneStep laneLen segmentLen lanes dI nX r s st.1 l := by
  simp only [laneStep, memLaneStep]
  exact foldl_fst _ _ (fun q i => rfl) _ _

theorem segStep_fst (laneLen segmentLen lanes p type : ℕ) (nX : Bool) (r : ℕ)
    (onP : Bool) (tB cP : ℕ) (st : MemState × ProgState) (s : ℕ) :
    (segStep laneLen segmentLen lanes p type nX r onP tB cP st s).1
      = memSegStep laneLen segmentLen lanes p type nX r st.1 s := by
  simp only [segStep, memSegStep]
  exact foldl_fst _ _ (fun q i => laneStep_fst _ _ _ _ _ _ _ _ _ _ q i) _ _

theorem passStep_fst (laneLen segmentLen lanes p type version : ℕ)
    (onP : Bool) (tB cP : ℕ) (st : MemState × ProgState) (r : ℕ) :
    (passStep laneLen segmentLen lanes p type version onP tB cP st r).1
      = memPassStep laneLen segmentLen lanes p type version st.1 r := by
  simp only [passStep, memPassStep]
  exact foldl_fst _ _ (fun q i => segStep_fst _ _ _ _ _ _ _ _ _ _ q i) _ _

theorem mainLoop_fst (laneLen segmentLen lanes p t type version : ℕ)
    (onP : Bool) (tB cP : ℕ) (st : MemState × ProgState) :
    (mainLoop laneLen segmentLen lanes p t type version onP tB cP st).1
      = memMain laneLen segmentLen lanes p t type version st.1 := by
  simp only [mainLoop, memMain]
  exact foldl_fst _ _ (fun q i => passStep_fst _ _ _ _ _ _ _ _ _ q i) _ _

theorem laneStep_snd (laneLen segmentLen lanes : ℕ) (dI nX : Bool) (r s : ℕ)
    (onP : Bool) (tB cP : ℕ) (st : MemState × ProgState) (l : ℕ) :
    (laneStep laneLen segmentLen lanes dI nX r s onP tB cP st l).2
      = iterN (perBlockStep onP tB cP) (progCount segmentLen r s) st.2 := by
  simp only [laneStep, progCount]
  rw [foldl_snd (fun ps _ => perBlockStep onP tB cP ps) _ (fun q i => rfl),
    foldl_const, List.length_range']

theorem segStep_snd (laneLen segmentLen lanes p type : ℕ) (nX : Bool) (r : ℕ)
    (onP : Bool) (tB cP : ℕ) (st : MemState × ProgState) (s : ℕ) :
    (segStep laneLen segmentLen lanes p type nX r onP tB cP st s).2
      = iterN (perBlockStep onP tB cP) (p * progCount segmentLen r s) st.2 := by
  simp only [segStep]
  rw [foldl_snd (fun ps _ => iterN (perBlockStep onP tB cP) (progCount segmentLen r s) ps) _
      (fun q i => laneStep_snd _ _ _ _ _ _ _ _ _ _ q i),
    foldl_const, List.length_range, iterN_iterN]

theorem passStep_snd (laneLen segmentLen lanes p type version : ℕ)
    (onP : Bool) (tB cP : ℕ) (st : MemState × ProgState) (r : ℕ) :
    (passStep laneLen segmentLen lanes p type version onP tB cP st r).2
      = (List.range ARGON2_SYNC_POINTS).foldl
          (fun ps s => iterN (perBlockStep onP tB cP) (p * progCount segmentLen r s) ps)
          st.2 := by
  simp only [passStep]
  exact foldl_snd _ _ (fun q i => segStep_snd _ _ _ _ _ _ _ _ _ _ q i) _ _

theorem mainLoop_snd (laneLen segmentLen lanes p t type version : ℕ)
    (onP : Bool) (tB cP : ℕ) (st : MemState × ProgState) :
    (mainLoop laneLen segmentLen lanes p t type version onP tB cP st).2
      = progMain onP tB cP t p segmentLen st.2 := by
  simp only [mainLoop, progMain]
  exact foldl_snd _ _ (fun q i => passStep_snd _ _ _ _ _ _ _ _ _ q i) _ _

theorem asyncLane_fst (laneLen segmentLen lanes : ℕ) (dI nX : Bool) (r s : ℕ)
    (onP : Bool) (tB cP : ℕ) (clock : ℕ → ℤ) (aT : ℤ)
    (st : (MemState × ProgState) × TickState) (l : ℕ) :
    (asyncLaneStep laneLen segmentLen lanes dI nX r s onP tB cP clock aT st l).1
      = laneStep laneLen segmentLen lanes dI nX r s onP tB cP st.1 l := by
  simp only [asyncLaneStep, laneStep]
  exact foldl_fst _ _ (fun q i => rfl) _ _

theorem asyncSeg_fst (laneLen segmentLen lanes p type : ℕ) (nX : Bool) (r : ℕ)
    (onP : Bool) (tB cP : ℕ) (clock : ℕ → ℤ) (aT : ℤ)
    (st : (MemState × ProgState) × TickState) (s : ℕ) :
    (asyncSegStep laneLen segmentLen lanes p type nX r onP tB cP clock aT st s).1
      = segStep laneLen segmentLen lanes p type nX r onP tB cP st.1 s := by
  simp only [asyncSegStep, segStep]
  exact foldl_fst _ _ (fun q i => asyncLane_fst _ _ _ _ _ _ _ _ _ _ _ _ q i) _ _

theorem asyncPass_fst (laneLen segmentLen lanes p type version : ℕ)
    (onP : Bool) (tB cP : ℕ) (clock : ℕ → ℤ) (aT : ℤ)
    (st : (MemState × ProgState) × TickState) (r : ℕ) :
    (asyncPassStep laneLen segmentLen lanes p type version onP tB cP clock aT st r).1
      = passStep laneLen segmentLen lanes p type version onP tB cP st.1 r := by
  simp only [asyncPassStep, passStep]
  exact foldl_fst _ _ (fun q i => asyncSeg_fst _ _ _ _ _ _ _ _ _ _ _ _ q i) _ _

theorem asyncMain_fst (laneLen segmentLen lanes p t type version : ℕ)
    (onP : Bool) (tB cP : ℕ) (clock : ℕ → ℤ) (aT : ℤ)
    (st : (MemState × ProgState) × TickState) :
    (asyncMainLoop laneLen segmentLen lanes p t type version onP tB cP clock aT st).1
      = mainLoop laneLen segmentLen lanes p t type version onP tB cP st.1 := by
  simp only [asyncMainLoop, mainLoop]
  exact foldl_fst _ _ (fun q i => asyncPass_fst _ _ _ _ _ _ _ _ _ _ _ q i) _ _

/-! ## Scratch-buffer zeroing invariant -/

theorem memIndexStep_a2 (laneLen segmentLen lanes : ℕ) (dI nX : Bool)
    (r s l startPos : ℕ) (ms : MemState) (i : ℕ) :
    (memIndexStep laneLen segmentLen lanes dI nX r s l startPos ms i).a2 = zeroFn := rfl

theorem lanePrelude_a2 (dI : Bool) (r s : ℕ) (ms : MemState) (l : ℕ)
    (h : ms.a2 = zeroFn) : (lanePrelude dI r s ms l).a2 = zeroFn := by
  simp only [lanePrelude]
  split_ifs
  · rfl
  · exact h

theorem memLaneStep_a2 (laneLen segmentLen lanes : ℕ) (dI nX : Bool) (r s : ℕ)
    (ms : MemState) (l : ℕ) (h : ms.a2 = zeroFn) :
    (memLaneStep laneLen segmentLen lanes dI nX r s ms l).a2 = zeroFn := by
  simp only [memLaneStep]
  refine foldl_inv (fun (b : MemState) => b.a2 = zeroFn) _ ?_ _ _ ?_
  · intro a i _
    exact memIndexStep_a2 _ _ _ _ _ _ _ _ _ a i
  · exact lanePrelude_a2 dI r s ms l h

theorem memSegStep_a2 (laneLen segmentLen lanes p type : ℕ) (nX : Bool) (r : ℕ)
    (ms : MemState) (s : ℕ) (h : ms.a2 = zeroFn) :
    (memSegStep laneLen segmentLen lanes p type nX r ms s).a2 = zeroFn := by
  simp only [memSegStep]
  refine foldl_inv (fun (b : MemState) => b.a2 = zeroFn) _ ?_ _ _ ?_
  · intro a i ha
    exact memLaneStep_a2 _ _ _ _ _ _ _ a i ha
  · exact h

theorem memPassStep_a2 (laneLen segmentLen lanes p type version : ℕ)
    (ms : MemState) (r : ℕ) (h : ms.a2 = zeroFn) :
    (memPassStep laneLen segmentLen lanes p type version ms r).a2 = zeroFn := by
  simp only [memPassStep]
  refine foldl_inv (fun (b : MemState) => b.a2 = zeroFn) _ ?_ _ _ ?_
  · intro a i ha
    exact memSegStep_a2 _ _ _ _ _ _ _ a i ha
  · exact h

theorem memMain_a2 (laneLen segmentLen lanes p t type version : ℕ)
    (ms : MemState) (h : ms.a2 = zeroFn) :
    (memMain laneLen segmentLen lanes p t type version ms).a2 = zeroFn := by
  simp only [memMain]
  refine foldl_inv (fun (b : MemState) => b.a2 = zeroFn) _ ?_ _ _ ?_
  · intro a i ha
    exact memPassStep_a2 _ _ _ _ _ _ a i ha
  · exact h

/-! ## The progress trace of a full run -/

theorem argon2Full_trace (H : List ℕ → ℕ → List ℕ) (type : ℕ) (password salt : List ℕ)
    (opts : ArgonOpts) :
    (argon2Full H type password salt opts).map A2Result.trace
      = (argon2Init H password salt type opts).map
          (fun ir => progTraceRun ir.onProgress ir.t ir.p ir.segmentLen) := by
  simp only [argon2Full]
  cases hinit : argon2Init H password salt type opts with
  | error e => rfl
  | ok ir =>
    dsimp only [Except.map]
    rw [mainLoop_snd]
    rfl


/-! ## Validation claims -/

/-- Claim C4 (amended): for every otherwise-valid parameter set, the
memory-budget error is raised exactly when `maxmem` is not a u32 or the
matrix size measured in 32-bit words, `m' * 256` (that is, `m' * 1024`
bytes divided by 4), exceeds `maxmem`; the failure is decided by the
parameters alone — the result is the same for every hash `H`, so it occurs
before the matrix `B` is allocated or touched. -/
theorem claim_C4 (H : List ℕ → ℕ → List ℕ) (password salt : List ℕ) (type : ℕ)
    (opts : ArgonOpts) (mo : MergedOpts)
    (hpw : password.length < 2 ^ 32)
    (hsalt : salt.length < 2 ^ 32 ∧ 8 ≤ salt.length)
    (htype : type = 0 ∨ type = 1 ∨ type = 2)
    (hmo : initOpts opts = .ok mo) :
    (argon2Init H password salt type opts = .error .maxmemErr ↔
      (¬ mo.maxmem < 2 ^ 32 ∨ mo.maxmem < 4 * mo.p * (mo.m / (4 * mo.p)) * 256)) ∧
    (∀ H2 : List ℕ → ℕ → List ℕ,
      (argon2Init H password salt type opts = .error .maxmemErr ↔
        argon2Init H2 password salt type opts = .error .maxmemErr)) := by
  have hred : ∀ H2 : List ℕ → ℕ → List ℕ,
      (argon2Init H2 password salt type opts = .error .maxmemErr ↔
        (¬ mo.maxmem < 2 ^ 32 ∨ mo.maxmem < 4 * mo.p * (mo.m / (4 * mo.p)) * 256)) := by
    intro H2
    simp only [argon2Init, hmo]
    rw [if_neg (not_not_intro hpw), if_neg (by push_neg; exact ⟨hsalt.1, by omega⟩),
      if_neg (not_not_intro htype)]
    simp only [ARGON2_SYNC_POINTS, isUint32]
    split_ifs with hc
    · simpa using hc
    · simpa using hc
  exact ⟨hred H, fun H2 => (hred H).trans (hred H2).symm⟩

/-- Witness for claim C4: `p = 1, m = 8, maxmem = 3000` — the matrix is 2048
32-bit words, within budget, although its 8192 bytes exceed `maxmem`. -/
theorem claim_C4_witness :
    (argon2Init (fun _ n => List.replicate n 0) [] [6, 7, 8, 9, 10, 6, 7, 8] 0
        ⟨1, 8, 1, none, none, none, none, none, some 3000, false⟩ = .error .maxmemErr ↔
      (¬ (3000 : ℕ) < 2 ^ 32 ∨ (3000 : ℕ) < 4 * 1 * (8 / (4 * 1)) * 256)) ∧
    (∀ H2 : List ℕ → ℕ → List ℕ,
      (argon2Init (fun _ n => List.replicate n 0) [] [6, 7, 8, 9, 10, 6, 7, 8] 0
          ⟨1, 8, 1, none, none, none, none, none, some 3000, false⟩ = .error .maxmemErr ↔
        argon2Init H2 [] [6, 7, 8, 9, 10, 6, 7, 8] 0
          ⟨1, 8, 1, none, none, none, none, none, some 3000, false⟩ = .error .maxmemErr)) :=
  claim_C4 (fun _ n => List.replicate n 0) [] [6, 7, 8, 9, 10, 6, 7, 8] 0
    ⟨1, 8, 1, none, none, none, none, none, some 3000, false⟩
    ⟨19, 32, 3000, 10, 1, 8, 1, none, none, false⟩
    (by decide) (by decide) (Or.inl rfl) (by rfl)

/-- Counterexample to claim C4 as stated: with `p = 1, m = 8` (so
`m' * 1024 = 8192` bytes) and `maxmem = 3000`, the byte reading of the claim
demands a memory-budget error, but the call succeeds: the code compares
`m' * 256` 32-bit words (2048) against `maxmem`. -/
theorem claim_C4_counterexample :
    (argon2Init (fun _ n => List.replicate n 0) [] [6, 7, 8, 9, 10, 6, 7, 8] 0
        ⟨1, 8, 1, none, none, none, none, none, some 3000, false⟩).isOk = true ∧
    (3000 : ℕ) < 4 * 1 * (8 / (4 * 1)) * 1024 := by
  constructor
  · rfl
  · norm_num

/-- Claim C8 (amended): an over-long password or salt is rejected before any
block is computed (with their respective error kinds), but the lengths of
`key` and `personalization` are never validated: replacing them by arbitrary
byte strings — of any length, including `2^32` bytes and more — never changes
whether the call succeeds. -/
theorem claim_C8 (H : List ℕ → ℕ → List ℕ) (password salt : List ℕ) (type : ℕ)
    (opts : ArgonOpts) :
    (2 ^ 32 ≤ password.length →
      argon2Init H password salt type opts = .error .passwordErr) ∧
    (password.length < 2 ^ 32 → 2 ^ 32 ≤ salt.length →
      argon2Init H password salt type opts = .error .saltErr) ∧
    (∀ key personalization : Option (List ℕ),
      (argon2Init H password salt type
          { opts with key := key, personalization := personalization }).isOk
        = (argon2Init H password salt type opts).isOk) := by
  refine ⟨?_, ?_, ?_⟩
  · intro hbig
    simp only [argon2Init]
    rw [if_pos (by simp only [isUint32]; omega)]
  · intro hpw hbig
    simp only [argon2Init]
    rw [if_neg (not_not_intro hpw), if_pos (Or.inl (by simp only [isUint32]; omega))]
  · intro key personalization
    simp only [argon2Init, initOpts_kp]
    cases hmo : initOpts opts with
    | error e => rfl
    | ok mo =>
      dsimp only [Except.map]
      exact isOk_ite _ _ _ _ (isOk_ite _ _ _ _ (isOk_ite _ _ _ _
        (isOk_ite _ _ _ _ (rfl : (true : Bool) = true))))

/-- Witness for claim C8: a `2^32`-byte password is rejected with the
password-too-large error. -/
theorem claim_C8_witness :
    argon2Init (fun _ n => List.replicate n 0) (List.replicate (2 ^ 32) 0)
        [6, 7, 8, 9, 10, 6, 7, 8] 0 ⟨1, 8, 1, none, none, none, none, none, none, false⟩
      = .error .passwordErr :=
  (claim_C8 (fun _ n => List.replicate n 0) (List.replicate (2 ^ 32) 0)
      [6, 7, 8, 9, 10, 6, 7, 8] 0 ⟨1, 8, 1, none, none, none, none, none, none, false⟩).1
    (le_of_eq (List.length_replicate _ _).symm)

/-- Counterexample to claim C8 as stated: a `2^32`-byte key does not make the
call fail — no input-too-large check is applied to `key` (nor to
`personalization`); the call succeeds. -/
theorem claim_C8_counterexample :
    (argon2Init (fun _ n => List.replicate n 0) [] [6, 7, 8, 9, 10, 6, 7, 8] 0
        ⟨1, 8, 1, none, some (List.replicate (2 ^ 32) 0), none, none, none, none,
          false⟩).isOk = true ∧
    2 ^ 32 ≤ (List.replicate (2 ^ 32) (0 : ℕ)).length := by
  constructor
  · rfl
  · exact le_of_eq (List.length_replicate _ _).symm


/-! ## Closed form of the progress trace -/

theorem iterN_perBlock_false (tB cP : ℕ) :
    ∀ (n : ℕ) (ps : ProgState), iterN (perBlockStep false tB cP) n ps = ps := by
  intro n
  induction n with
  | zero => intro ps; rfl
  | succ n ih => intro ps; exact ih ps

theorem iterN_perBlock (tB cP : ℕ) :
    ∀ (n c : ℕ) (tr : List (ℕ × ℕ)),
      iterN (perBlockStep true tB cP) n ⟨c, tr⟩
        = ⟨c + n,
            tr ++ ((List.range' (c + 1) n).filter
                (fun x => x % cP = 0 ∨ x = tB)).map
              (fun x => (x, tB))⟩ := by
  intro n
  induction n with
  | zero => intro c tr; simp [iterN]
  | succ n ih =>
    intro c tr
    have h0 : iterN (perBlockStep true tB cP) (n + 1) ⟨c, tr⟩
        = iterN (perBlockStep true tB cP) n (perBlockStep true tB cP ⟨c, tr⟩) := rfl
    rw [h0]
    by_cases hc : (c + 1) % cP = 0 ∨ (c + 1) = tB
    · have hstep : perBlockStep true tB cP ⟨c, tr⟩
          = ⟨c + 1, tr ++ [(c + 1, tB)]⟩ := by
        simp only [perBlockStep]
        rw [if_pos trivial, if_pos hc]
      rw [hstep, ih (c + 1) _, List.range'_succ,
        List.filter_cons_of_pos (by simpa using hc), List.map_cons]
      congr 1
      · omega
      · rw [List.append_assoc, List.singleton_append]
    · have hstep : perBlockStep true tB cP ⟨c, tr⟩ = ⟨c + 1, tr⟩ := by
        simp only [perBlockStep]
        rw [if_pos trivial, if_neg hc]
      rw [hstep, ih (c + 1) tr, List.range'_succ,
        List.filter_cons_of_neg (by simpa using hc)]
      congr 1
      omega

theorem progSum (t p segLen : ℕ) :
    ((List.range t).map (fun r =>
        ((List.range ARGON2_SYNC_POINTS).map (fun s => p * progCount segLen r s)).sum)).sum
      = progN t p segLen := by
  induction t with
  | zero => simp [progN]
  | succ t ih =>
    rw [List.range_succ, List.map_append, List.sum_append, ih]
    have h4 : List.range ARGON2_SYNC_POINTS = [0, 1, 2, 3] := rfl
    rw [h4]
    simp only [List.map_cons, List.map_nil, List.sum_cons, List.sum_nil, progCount]
    norm_num [Nat.sub_zero]
    rcases Nat.eq_zero_or_pos t with rfl | ht
    · simp [progN]
      ring
    · have ht0 : ¬ (t = 0) := by omega
      have ht1 : ¬ (t + 1 = 0) := by omega
      simp only [progN, if_neg ht0, if_neg ht1, Nat.add_sub_cancel, ht0, if_false,
        Nat.sub_zero]
      have e2 : t * (ARGON2_SYNC_POINTS * p * segLen)
          = (t - 1) * (ARGON2_SYNC_POINTS * p * segLen)
            + ARGON2_SYNC_POINTS * p * segLen := by
        obtain ⟨u, rfl⟩ : ∃ u, t = u + 1 := ⟨t - 1, by omega⟩
        rw [Nat.add_sub_cancel]
        ring
      have e1 : ARGON2_SYNC_POINTS * p * segLen = 4 * (p * segLen) := by
        rw [show ARGON2_SYNC_POINTS = 4 from rfl]
        ring
      omega

theorem progMain_eq (onP : Bool) (tB cP t p segLen : ℕ) (ps : ProgState) :
    progMain onP tB cP t p segLen ps
      = iterN (perBlockStep onP tB cP) (progN t p segLen) ps := by
  simp only [progMain]
  rw [show (fun (q : ProgState) (r : ℕ) =>
      (List.range ARGON2_SYNC_POINTS).foldl (fun ps s =>
        iterN (perBlockStep onP tB cP) (p * progCount segLen r s) ps) q)
    = (fun q r => iterN (perBlockStep onP tB cP)
        (((List.range ARGON2_SYNC_POINTS).map
          (fun s => p * progCount segLen r s)).sum) q)
    from funext fun q => funext fun r => foldl_iterN _ _ _ q]
  rw [foldl_iterN (perBlockStep onP tB cP)
    (fun r => ((List.range ARGON2_SYNC_POINTS).map (fun s => p * progCount segLen r s)).sum),
    progSum]

theorem progTraceRun_eq (onP : Bool) (t p segLen : ℕ) :
    progTraceRun onP t p segLen
      = if onP then
          ((List.range' 1 (progN t p segLen)).filter
              (fun x => x % max (t * ARGON2_SYNC_POINTS * p * segLen / 10000) 1 = 0
                ∨ x = t * ARGON2_SYNC_POINTS * p * segLen)).map
            (fun x => (x, t * ARGON2_SYNC_POINTS * p * segLen))
        else [] := by
  simp only [progTraceRun]
  rw [progMain_eq]
  cases onP with
  | false => rw [iterN_perBlock_false]; rfl
  | true =>
    rw [if_pos rfl, iterN_perBlock]
    simp

theorem progN_lt (t p segLen : ℕ) (h : 0 < progN t p segLen) :
    progN t p segLen < t * ARGON2_SYNC_POINTS * p * segLen := by
  rcases Nat.eq_zero_or_pos t with rfl | ht
  · simp [progN] at h
  · have ht0 : ¬ (t = 0) := by omega
    simp only [progN, if_neg ht0] at h ⊢
    obtain ⟨u, rfl⟩ : ∃ u, t = u + 1 := ⟨t - 1, by omega⟩
    rw [Nat.add_sub_cancel] at h ⊢
    have e1 : (u + 1) * ARGON2_SYNC_POINTS * p * segLen
        = u * (ARGON2_SYNC_POINTS * p * segLen) + 4 * (p * segLen) := by
      rw [show ARGON2_SYNC_POINTS = 4 from rfl]
      ring
    have e3 : p * (segLen - 2) ≤ p * segLen := Nat.mul_le_mul_left p (Nat.sub_le _ _)
    have e4 : p * (segLen - 2) < p * segLen ∨ p * segLen = 0 := by
      rcases Nat.eq_zero_or_pos (p * segLen) with h0 | h0
      · right; exact h0
      · left
        have hp : 0 < p := by
          rcases Nat.eq_zero_or_pos p with rfl | hp
          · simp at h0
          · exact hp
        have hs : 0 < segLen := by
          rcases Nat.eq_zero_or_pos segLen with rfl | hs
          · simp at h0
          · exact hs
        exact mul_lt_mul_of_pos_left (by omega) hp
    have e6 : p * segLen = 0 → u * (ARGON2_SYNC_POINTS * p * segLen) = 0 := by
      intro h0
      rw [show ARGON2_SYNC_POINTS * p * segLen = 4 * (p * segLen) from by
        rw [show ARGON2_SYNC_POINTS = 4 from rfl]; ring, h0]
      ring
    omega

theorem progTraceRun_mem (onP : Bool) (t p segLen : ℕ) (c d : ℕ)
    (hq : (c, d) ∈ progTraceRun onP t p segLen) :
    0 ≤ (c : ℚ) / (d : ℚ) ∧ (c : ℚ) / (d : ℚ) < 1 := by
  rw [progTraceRun_eq] at hq
  cases onP with
  | false => simp at hq
  | true =>
    rw [if_pos rfl] at hq
    rcases List.mem_map.mp hq with ⟨x, hx, heq⟩
    injection heq with h1 h2
    subst h2
    rw [h1] at hx
    rcases List.mem_filter.mp hx with ⟨hx1, _⟩
    have hx2 : 1 ≤ c ∧ c < 1 + progN t p segLen := by
      have := List.mem_range'_1.mp hx1
      omega
    refine ⟨by positivity, ?_⟩
    rcases Nat.eq_zero_or_pos (t * ARGON2_SYNC_POINTS * p * segLen) with h0 | h0
    · rw [h0]
      norm_num
    · have hlt : c < t * ARGON2_SYNC_POINTS * p * segLen := by
        have hN : 0 < progN t p segLen := by omega
        have := progN_lt t p segLen hN
        omega
      rw [div_lt_one (by exact_mod_cast h0)]
      exact_mod_cast hlt

/-! ## Key and personalization congruences at the call level -/

theorem argon2Init_key_congr (H : List ℕ → ℕ → List ℕ) (password salt : List ℕ)
    (type : ℕ) (opts : ArgonOpts) :
    argon2Init H password salt type { opts with key := none }
      = argon2Init H password salt type { opts with key := some [] } := by
  simp only [argon2Init, initOpts_key]
  cases hmo : initOpts opts with
  | error e => rfl
  | ok mo =>
    dsimp only [Except.map]
    rfl

theorem argon2Init_pers_congr (H : List ℕ → ℕ → List ℕ) (password salt : List ℕ)
    (type : ℕ) (opts : ArgonOpts) :
    argon2Init H password salt type { opts with personalization := none }
      = argon2Init H password salt type { opts with personalization := some [] } := by
  simp only [argon2Init, initOpts_pers]
  cases hmo : initOpts opts with
  | error e => rfl
  | ok mo =>
    dsimp only [Except.map]
    rfl

/-- Results under a shared validation guard are equal as soon as the guarded
tails are, with a map on the right. -/
theorem ite_eq_map_ite {E A B : Type} (c : Prop) [Decidable c] (e : E)
    (x : Except E B) (y : Except E A) (f : A → B) (h : x = Except.map f y) :
    (if c then Except.error e else x) = Except.map f (if c then Except.error e else y) := by
  by_cases hc : c
  · rw [if_pos hc, if_pos hc]; rfl
  · rw [if_neg hc, if_neg hc]; exact h

/-- A successful `initOpts` returns exactly the defaults-merged record. -/
theorem initOpts_fields {opts : ArgonOpts} {mo : MergedOpts}
    (h : initOpts opts = .ok mo) :
    mo = ⟨opts.version.getD 0x13, opts.dkLen.getD 32, opts.maxmem.getD (2 ^ 32 - 1),
      opts.asyncTick.getD 10, opts.t, opts.m, opts.p, opts.key, opts.personalization,
      opts.onProgress⟩ := by
  simp only [initOpts] at h
  split_ifs at h <;>
    first
    | exact Except.noConfusion h
    | (injection h with h
       exact h.symm)

/-- A successful `argon2Init` carries the requested output length and the
zero-filled `H0` and `BUF`. -/
theorem argon2Init_fields {H : List ℕ → ℕ → List ℕ} {password salt : List ℕ}
    {type : ℕ} {opts : ArgonOpts} {ir : InitResult}
    (h : argon2Init H password salt type opts = .ok ir) :
    ir.dkLen = opts.dkLen.getD 32 ∧ ir.H0final = zeroFn ∧ ir.BUFfinal = zeroFn := by
  cases hmo : initOpts opts with
  | error e =>
    simp only [argon2Init, hmo] at h
    split_ifs at h <;> exact Except.noConfusion h
  | ok mo =>
    simp only [argon2Init, hmo] at h
    split_ifs at h <;>
      first
      | exact Except.noConfusion h
      | (injection h with h
         subst h
         refine ⟨?_, rfl, rfl⟩
         show mo.dkLen = opts.dkLen.getD 32
         rw [initOpts_fields hmo])

/-- Changing the `asyncTick` and `onProgress` options changes only those
fields of a successful initialization. -/
theorem argon2Init_tick (H : List ℕ → ℕ → List ℕ) (password salt : List ℕ)
    (type : ℕ) (opts : ArgonOpts) (a : Option ℤ) (b : Bool) :
    argon2Init H password salt type { opts with asyncTick := a, onProgress := b }
      = (argon2Init H password salt type opts).map
          (fun ir => { ir with asyncTick := a.getD 10, onProgress := b }) := by
  simp only [argon2Init, initOpts_tick]
  cases hmo : initOpts opts with
  | error e =>
    exact ite_eq_map_ite _ _ _ _ _ (ite_eq_map_ite _ _ _ _ _ (ite_eq_map_ite _ _ _ _ _ rfl))
  | ok mo =>
    exact ite_eq_map_ite _ _ _ _ _ (ite_eq_map_ite _ _ _ _ _ (ite_eq_map_ite _ _ _ _ _
      (ite_eq_map_ite _ _ _ _ _ rfl)))

/-! ## The remaining claims -/

/-- Claim C2: the variable-length hash produces exactly `n` bytes for every
requested `n ≥ 1` (given that the abstract BLAKE2b honours its output-length
parameter), and every successful top-level call returns a tag of exactly the
requested `dkLen` bytes — which defaults to 32 and is taken from the options
otherwise. -/
theorem claim_C2 (H : List ℕ → ℕ → List ℕ) (hH : ∀ y k, (H y k).length = k) :
    (∀ (A : List ℕ) (n : ℕ), 1 ≤ n → (Hp H A n).length = n) ∧
    (∀ (type : ℕ) (password salt : List ℕ) (opts : ArgonOpts),
      (argon2Full H type password salt opts).map (fun r => r.out.length)
        = (argon2Full H type password salt opts).map A2Result.dkLen) ∧
    (∀ (type : ℕ) (password salt : List ℕ) (opts : ArgonOpts),
      (argon2Full H type password salt opts).map A2Result.dkLen
        = (argon2Full H type password salt opts).map (fun _ => opts.dkLen.getD 32)) := by
  refine ⟨fun A n _ => Hp_length H hH A n, ?_, ?_⟩
  · intro type password salt opts
    cases hinit : argon2Init H password salt type opts with
    | error e => simp only [argon2Full, hinit, Except.map]
    | ok ir =>
      simp only [argon2Full, hinit, Except.map]
      congr 1
      exact Hp_length H hH _ _
  · intro type password salt opts
    cases hinit : argon2Init H password salt type opts with
    | error e => simp only [argon2Full, hinit, Except.map]
    | ok ir =>
      simp only [argon2Full, hinit, Except.map]
      rw [(argon2Init_fields hinit).1]

/-- Witness for claim C2 at a dummy hasher and `n = 70` (larger than 64 and
not a multiple of 4). -/
theorem claim_C2_witness :
    1 ≤ 70 ∧ (Hp (fun _ k => List.replicate k 0) [] 70).length = 70 :=
  ⟨by decide,
    (claim_C2 (fun _ k => List.replicate k 0) (fun y k => List.length_replicate k 0)).1
      [] 70 (by decide)⟩

/-- Claim C5: the cooperative driver returns exactly the blocking driver's
result for every clock stream, and the output bytes are unchanged by the
`asyncTick` value and by the presence of an `onProgress` callback. -/
theorem claim_C5 (H : List ℕ → ℕ → List ℕ) (clock : ℕ → ℤ) (type : ℕ)
    (password salt : List ℕ) (opts : ArgonOpts) (a : Option ℤ) (b : Bool) :
    argon2AsyncFull H clock type password salt opts
      = argon2Full H type password salt opts ∧
    (argon2Full H type password salt { opts with asyncTick := a, onProgress := b }).map
        A2Result.out
      = (argon2Full H type password salt opts).map A2Result.out := by
  constructor
  · cases hinit : argon2Init H password salt type opts with
    | error e => simp only [argon2AsyncFull, argon2Full, hinit]
    | ok ir =>
      simp only [argon2AsyncFull, argon2Full, hinit]
      rw [asyncMain_fst]
  · simp only [argon2Full, argon2Init_tick]
    cases hinit : argon2Init H password salt type opts with
    | error e => rfl
    | ok ir =>
      simp only [Except.map, mainLoop_fst]
      try rfl

/-- Claim C7: after every successful top-level call, the recorded final
contents of `H0`, the length-encoding `BUF`, the address triple, the
per-block scratch and the finalization accumulator are all zero. -/
theorem claim_C7 (H : List ℕ → ℕ → List ℕ) (type : ℕ) (password salt : List ℕ)
    (opts : ArgonOpts) :
    (argon2Full H type password salt opts).map
        (fun r => (r.H0final, r.BUFfinal, r.addrFinal, r.a2Final, r.accFinal))
      = (argon2Full H type password salt opts).map
          (fun _ => (zeroFn, zeroFn, zeroFn, zeroFn, zeroFn)) := by
  have ha2 : ∀ (lL sL ln p t ty v : ℕ) (B0 a0 : ℕ → ℕ),
      (memMain lL sL ln p t ty v ⟨B0, a0, zeroFn⟩).a2 = zeroFn :=
    fun lL sL ln p t ty v B0 a0 => memMain_a2 lL sL ln p t ty v ⟨B0, a0, zeroFn⟩ rfl
  cases hinit : argon2Init H password salt type opts with
  | error e => simp only [argon2Full, hinit, Except.map]
  | ok ir =>
    simp only [argon2Full, hinit, Except.map, mainLoop_fst, ha2]
    rcases argon2Init_fields hinit with ⟨_, h0, hbuf⟩
    rw [h0, hbuf]
    rfl

/-- Claim C9 (amended): the driver's progress trace is the pure function
`progTraceRun` of the parameters; every reported fraction lies in `[0, 1)` —
so the final invocation never passes exactly `1.0`, because the `2p` seeded
blocks are counted in `totalBlock` but never produced; and the callback fires
exactly at the multiples of `callbackPer = max(⌊totalBlock / 10000⌋, 1)`
(the `blockCnt = totalBlock` trigger is unreachable). -/
theorem claim_C9 :
    (∀ (H : List ℕ → ℕ → List ℕ) (type : ℕ) (password salt : List ℕ) (opts : ArgonOpts),
      (argon2Full H type password salt opts).map A2Result.trace
        = (argon2Init H password salt type opts).map
            (fun ir => progTraceRun ir.onProgress ir.t ir.p ir.segmentLen)) ∧
    (∀ (onP : Bool) (t p segLen c d : ℕ),
      (c, d) ∈ progTraceRun onP t p segLen →
        0 ≤ (c : ℚ) / (d : ℚ) ∧ (c : ℚ) / (d : ℚ) < 1) ∧
    (∀ (onP : Bool) (t p segLen : ℕ),
      progTraceRun onP t p segLen
        = if onP then
            ((List.range' 1 (progN t p segLen)).filter
                (fun x => x % max (t * ARGON2_SYNC_POINTS * p * segLen / 10000) 1 = 0
                  ∨ x = t * ARGON2_SYNC_POINTS * p * segLen)).map
              (fun x => (x, t * ARGON2_SYNC_POINTS * p * segLen))
          else []) :=
  ⟨argon2Full_trace, progTraceRun_mem, progTraceRun_eq⟩

/-- Witness for claim C9: in the run with `t = 1, m = 8, p = 1` the final
invocation reports `(6, 8)` — the fraction `6/8 = 3/4`, which lies in
`[0, 1)`. -/
theorem claim_C9_witness :
    ((6, 8) ∈ progTraceRun true 1 1 2) ∧
    (0 ≤ ((6 : ℕ) : ℚ) / ((8 : ℕ) : ℚ) ∧ ((6 : ℕ) : ℚ) / ((8 : ℕ) : ℚ) < 1) :=
  ⟨by decide, claim_C9.2.1 true 1 1 2 6 8 (by decide)⟩

/-- Counterexample to claim C9 as stated: with `t = 1, m = 8, p = 1` and a
progress callback, the six invocations report `(1, 8)` up to `(6, 8)` — the
final one passes the fraction `6/8 = 3/4`, not `1.0` (`totalBlock = 8` but
only 6 blocks are produced). -/
theorem claim_C9_counterexample :
    (argon2Full (fun _ n => List.replicate n 0) 0 [] [6, 7, 8, 9, 10, 6, 7, 8]
        ⟨1, 8, 1, none, none, none, none, none, none, true⟩).map A2Result.trace
      = .ok [(1, 8), (2, 8), (3, 8), (4, 8), (5, 8), (6, 8)] ∧
    ([(1, 8), (2, 8), (3, 8), (4, 8), (5, 8), (6, 8)] : List (ℕ × ℕ)).getLast?
      = some (6, 8) ∧
    ((6 : ℚ) / (8 : ℚ)) ≠ 1 := by
  refine ⟨?_, by decide, by norm_num⟩
  rw [argon2Full_trace]
  rfl

/-- Claim C10: omitting `key` (or `personalization`) gives exactly the same
result as passing the empty byte string — the absent optional is encoded as
the zero-length field. -/
theorem claim_C10 (H : List ℕ → ℕ → List ℕ) (type : ℕ) (password salt : List ℕ)
    (opts : ArgonOpts) :
    argon2Full H type password salt { opts with key := none }
      = argon2Full H type password salt { opts with key := some [] } ∧
    argon2Full H type password salt { opts with personalization := none }
      = argon2Full H type password salt { opts with personalization := some [] } ∧
    toBytesOptional none = ([] : List ℕ) := by
  refine ⟨?_, ?_, rfl⟩
  · simp only [argon2Full, argon2Init_key_congr]
  · simp only [argon2Full, argon2Init_pers_congr]

end Argon2
